import Mathlib

/-!
# Verification of the canvas-log invariant checker

A shallow embedding of `src/main.rs`, the log analyzer for concurrent
"artist" paint events, together with proofs about its checkers.

Modelling conventions:

* Rust `i16` coordinates are `Int` together with the wrapping function
  `wrap16` applied exactly where the source performs `i16` arithmetic on
  derived values (release-mode two's-complement semantics).
* `HashSet` / `HashMap` values are association lists / lists whose order
  records the (otherwise unspecified) iteration order of the hash
  containers; insertion of a duplicate leaves the list unchanged.
* A Rust panic (`unimplemented!()`, `.expect(..)`) is `Option.none`.
* Checkers return their structured violation lists; the `Err`/`Ok`
  result of each Rust checker is non-emptiness of that list.
-/

/-- `Point` from the source: a pair of `i16` coordinates. -/
structure Point where
  x : Int
  y : Int
deriving DecidableEq, Repr

/-- `Color` from the source: a triple of `u8` channels. -/
structure Color where
  r : Nat
  g : Nat
  b : Nat
deriving DecidableEq, Repr

/-- `CanvasPixel` from the source: one paint event. -/
structure CanvasPixel where
  artist : Nat
  coord : Point
  color : Color
deriving DecidableEq, Repr

/-- `Canvas` from the source: the ordered event log. -/
abbrev Canvas := List CanvasPixel

/-- The `posns_map` built in `main`: artist id to occupancy set, the
list order recording hash-map/set iteration order. -/
abbrev PosnsMap := List (Nat × List Point)

/-- Two's-complement wrap-around into the `i16` range, the release-mode
semantics of `i16` subtraction overflow in the source. -/
def wrap16 (v : Int) : Int := (v + 32768) % 65536 - 32768

/-- `p.x - a.x` / `p.y - a.y` as performed by `normalize_points` on
`i16` fields: componentwise wrapping subtraction. -/
def Point.wsub (p a : Point) : Point :=
  ⟨wrap16 (p.x - a.x), wrap16 (p.y - a.y)⟩

/-- Exact (mathematical) componentwise translation of a point, used to
state what "identical up to pure translation" means. -/
def Point.add (p d : Point) : Point := ⟨p.x + d.x, p.y + d.y⟩

theorem Point.eq_of_xy (p q : Point) (hx : p.x = q.x) (hy : p.y = q.y) :
    p = q := by
  cases p; cases q; simp_all

/-- `points.iter().max()` with the source's `Ord for Point`, which
compares `x` alone; Rust's `max` keeps the last of several maxima in
iteration order. -/
def rustMax : List Point → Option Point
  | [] => none
  | p :: ps => some (ps.foldl (fun acc q => if acc.x ≤ q.x then q else acc) p)

/-- `collect::<HashSet<_>>()` over a list: insert each element in
order, keeping the first occurrence of duplicates. -/
def hsCollect (l : List Point) : List Point :=
  l.foldl (fun acc p => if p ∈ acc then acc else acc ++ [p]) []

/-- `normalize_points` from the source: subtract the rightmost point
(`Ord` on `x` only, ties resolved by iteration order) from every
member; `Err` on the empty set. -/
def normalize_points (points : List Point) : Except String (List Point) :=
  match rustMax points with
  | none => .error "Error finding rightmost point in the set of points."
  | some rightmost => .ok (hsCollect (points.map (fun p => p.wsub rightmost)))

/-- One step of the occupancy fold in `main`: insert `p` into artist
`a`'s set, creating the entry when absent (a duplicate insertion only
emits a diagnostic and leaves the set unchanged). -/
def addToEntry : PosnsMap → Nat → Point → PosnsMap
  | [], a, p => [(a, [p])]
  | (b, s) :: rest, a, p =>
      if b = a then (b, if p ∈ s then s else s ++ [p]) :: rest
      else (b, s) :: addToEntry rest a p

/-- The occupancy-index fold from `main` (lines 100-119): one pass over
the canvas building artist → occupancy set. -/
def buildPosns (canvas : Canvas) : PosnsMap :=
  canvas.foldl (fun m px => addToEntry m px.artist px.coord) []

/-- `check_enough_artists`: `some (expected, found)` is the violation. -/
def check_enough_artists (artists : List Nat) (num_artists : Nat) :
    Option (Nat × Nat) :=
  if artists.length ≠ num_artists then some (num_artists, artists.length)
  else none

/-- `check_all_artists_draw`: the violation list of artists drawing
fewer than `num_pixels` pixels, with their counts. -/
def check_all_artists_draw (posns_map : PosnsMap) (num_pixels : Nat) :
    List (Nat × Nat) :=
  (posns_map.filter (fun as => as.2.length < num_pixels)).map
    (fun as => (as.1, as.2.length))

/-! ## Basic lemmas about the occupancy fold (C9) -/

theorem addToEntry_nonempty (m : PosnsMap) (a : Nat) (p : Point)
    (hm : ∀ e ∈ m, e.2 ≠ []) :
    ∀ e ∈ addToEntry m a p, e.2 ≠ [] := by
  induction m with
  | nil =>
      intro e he
      simp only [addToEntry, List.mem_singleton] at he
      subst he; simp
  | cons hd tl ih =>
      obtain ⟨b, s⟩ := hd
      intro e he
      rw [addToEntry] at he
      split at he
      · rcases List.mem_cons.mp he with he | he
        · subst he
          by_cases hp : p ∈ s
          · simpa [hp] using hm (b, s) (by simp)
          · simp [hp]
        · exact hm e (List.mem_cons_of_mem _ he)
      · rcases List.mem_cons.mp he with he | he
        · subst he; exact hm (b, s) (by simp)
        · exact ih (fun e' he' => hm e' (List.mem_cons_of_mem _ he')) e he

theorem buildPosns_aux_nonempty (canvas : Canvas) (m : PosnsMap)
    (hm : ∀ e ∈ m, e.2 ≠ []) :
    ∀ e ∈ canvas.foldl (fun m px => addToEntry m px.artist px.coord) m,
      e.2 ≠ [] := by
  induction canvas generalizing m with
  | nil => simpa using hm
  | cons px rest ih =>
      intro e he
      exact ih (addToEntry m px.artist px.coord)
        (addToEntry_nonempty m px.artist px.coord hm) e he

/-- C9: every artist entry created by the event fold in `main` holds a
non-empty occupancy set — an entry is only ever created together with
its first coordinate and coordinates are never removed. -/
theorem buildPosns_nonempty (canvas : Canvas) (a : Nat) (s : List Point)
    (h : (a, s) ∈ buildPosns canvas) : s ≠ [] := by
  exact buildPosns_aux_nonempty canvas [] (by simp) (a, s) h

/-- Witness for `buildPosns_nonempty` at a concrete one-event log. -/
theorem buildPosns_nonempty_witness :
    (1, [Point.mk 0 0]) ∈ buildPosns [⟨1, ⟨0, 0⟩, ⟨1, 2, 3⟩⟩] ∧
      ([Point.mk 0 0] : List Point) ≠ [] :=
  ⟨by decide, buildPosns_nonempty [⟨1, ⟨0, 0⟩, ⟨1, 2, 3⟩⟩] 1 [⟨0, 0⟩] (by decide)⟩

/-! ## `normalize_points` (C10) -/

/-- The `i16` range of the source's coordinate fields. -/
def InI16 (v : Int) : Prop := -32768 ≤ v ∧ v ≤ 32767

instance (v : Int) : Decidable (InI16 v) := by unfold InI16; infer_instance

/-- A point whose two coordinates are representable `i16` values. -/
def Point.InRange (p : Point) : Prop := InI16 p.x ∧ InI16 p.y

instance (p : Point) : Decidable p.InRange := by unfold Point.InRange; infer_instance

/-- All members of an occupancy list are `i16`-representable. -/
def InRangeAll (l : List Point) : Prop := ∀ p ∈ l, p.InRange

instance (l : List Point) : Decidable (InRangeAll l) := by
  unfold InRangeAll; infer_instance

/-- No `x` difference from the anchor underflows `i16` during
`normalize_points`' subtraction. -/
def NoUnderflowX (l : List Point) : Prop :=
  match rustMax l with
  | none => True
  | some a => ∀ p ∈ l, a.x - p.x ≤ 32768

theorem foldmax_mem (ps : List Point) (p : Point) :
    ps.foldl (fun acc q => if acc.x ≤ q.x then q else acc) p ∈ p :: ps := by
  induction ps generalizing p with
  | nil => simp
  | cons q rest ih =>
      have h := ih (if p.x ≤ q.x then q else p)
      rcases List.mem_cons.mp h with h | h
      · rw [List.foldl_cons, h]
        by_cases hpq : p.x ≤ q.x <;> simp [hpq]
      · simp only [List.foldl_cons]
        exact List.mem_cons_of_mem _ (List.mem_cons_of_mem _ h)

theorem foldmax_ge (ps : List Point) (p : Point) :
    ∀ r ∈ p :: ps,
      r.x ≤ (ps.foldl (fun acc q => if acc.x ≤ q.x then q else acc) p).x := by
  induction ps generalizing p with
  | nil => intro r hr; simp at hr; simp [hr]
  | cons q rest ih =>
      intro r hr
      simp only [List.foldl_cons]
      have step : p.x ≤ (if p.x ≤ q.x then q else p).x ∧
          q.x ≤ (if p.x ≤ q.x then q else p).x := by
        by_cases hpq : p.x ≤ q.x
        · simp [hpq]
        · simp [hpq]; omega
      rcases List.mem_cons.mp hr with hr | hr
      · subst hr
        exact le_trans step.1 (ih _ _ (List.mem_cons_self _ _))
      · rcases List.mem_cons.mp hr with hr | hr
        · subst hr
          exact le_trans step.2 (ih _ _ (List.mem_cons_self _ _))
        · exact ih _ _ (List.mem_cons_of_mem _ hr)

theorem rustMax_mem (l : List Point) (a : Point) (h : rustMax l = some a) :
    a ∈ l := by
  cases l with
  | nil => simp [rustMax] at h
  | cons p ps =>
      simp only [rustMax, Option.some.injEq] at h
      subst h
      exact foldmax_mem ps p

theorem rustMax_maxX (l : List Point) (a : Point) (h : rustMax l = some a) :
    ∀ r ∈ l, r.x ≤ a.x := by
  cases l with
  | nil => simp [rustMax] at h
  | cons p ps =>
      simp only [rustMax, Option.some.injEq] at h
      subst h
      exact foldmax_ge ps p

theorem rustMax_cons (p : Point) (ps : List Point) :
    ∃ a, rustMax (p :: ps) = some a := ⟨_, rfl⟩

theorem wrap16_eq_self (v : Int) (h1 : -32768 ≤ v) (h2 : v ≤ 32767) :
    wrap16 v = v := by
  unfold wrap16; omega

theorem wrap16_cong (a b : Int) (h : wrap16 a = wrap16 b) :
    a % 65536 = b % 65536 := by
  unfold wrap16 at h; omega

theorem mem_foldl_hsInsert (l acc : List Point) (p : Point) :
    p ∈ l.foldl (fun acc q => if q ∈ acc then acc else acc ++ [q]) acc ↔
      p ∈ acc ∨ p ∈ l := by
  induction l generalizing acc with
  | nil => simp
  | cons q rest ih =>
      simp only [List.foldl_cons]
      rw [ih]
      by_cases hq : q ∈ acc
      · simp only [if_pos hq, List.mem_cons]
        constructor
        · rintro (h | h)
          · exact Or.inl h
          · exact Or.inr (Or.inr h)
        · rintro (h | h | h)
          · exact Or.inl h
          · exact Or.inl (h ▸ hq)
          · exact Or.inr h
      · simp only [if_neg hq, List.mem_append, List.mem_singleton, List.mem_cons]
        tauto

theorem mem_hsCollect (l : List Point) (p : Point) :
    p ∈ hsCollect l ↔ p ∈ l := by
  unfold hsCollect
  rw [mem_foldl_hsInsert]
  simp

theorem hsCollect_eq_self_aux (l acc : List Point)
    (h : (acc ++ l).Nodup) :
    l.foldl (fun acc q => if q ∈ acc then acc else acc ++ [q]) acc = acc ++ l := by
  induction l generalizing acc with
  | nil => simp
  | cons q rest ih =>
      have hq : q ∉ acc := by
        intro hmem
        exact (List.disjoint_of_nodup_append h) hmem (List.mem_cons_self _ _)
      simp only [List.foldl_cons, if_neg hq]
      have : (acc ++ [q]) ++ rest = acc ++ q :: rest := by simp
      rw [ih (acc ++ [q]) (by rw [this]; exact h), this]

theorem hsCollect_eq_self (l : List Point) (h : l.Nodup) : hsCollect l = l := by
  unfold hsCollect
  simpa using hsCollect_eq_self_aux l [] (by simpa using h)

/-- Amended C10: on a non-empty, duplicate-free set of `i16` points,
`normalize_points` returns `Ok` with a same-cardinality set containing
the origin; every member has `x ≤ 0` provided no `x` difference from
the anchor underflows `i16` (with underflow the wrapped difference can
be positive). -/
theorem normalize_points_spec (ps : List Point) (hne : ps ≠ [])
    (hnd : ps.Nodup) (hrange : InRangeAll ps) :
    ∃ ns, normalize_points ps = .ok ns ∧ ns.length = ps.length ∧
      Point.mk 0 0 ∈ ns ∧ (NoUnderflowX ps → ∀ r ∈ ns, r.x ≤ 0) := by
  obtain ⟨p, rest, rfl⟩ := List.exists_cons_of_ne_nil hne
  obtain ⟨a, ha⟩ := rustMax_cons p rest
  have hamem : a ∈ p :: rest := rustMax_mem _ _ ha
  have hamax : ∀ r ∈ p :: rest, r.x ≤ a.x := rustMax_maxX _ _ ha
  have hinj : ∀ r ∈ p :: rest, ∀ s ∈ p :: rest, r.wsub a = s.wsub a → r = s := by
    intro r hr s hs heq
    have hrr := hrange r hr
    have hss := hrange s hs
    have hx := wrap16_cong _ _ (congrArg Point.x heq)
    have hy := wrap16_cong _ _ (congrArg Point.y heq)
    simp only [Point.wsub] at hx hy
    obtain ⟨⟨hr1, hr2⟩, ⟨hr3, hr4⟩⟩ := hrr
    obtain ⟨⟨hs1, hs2⟩, ⟨hs3, hs4⟩⟩ := hss
    have : r.x = s.x := by omega
    have : r.y = s.y := by omega
    cases r; cases s; simp_all
  have hmapnd : ((p :: rest).map (fun q => q.wsub a)).Nodup :=
    List.Nodup.map_on (fun x hx y hy h => hinj x hx y hy h) hnd
  refine ⟨(p :: rest).map (fun q => q.wsub a), ?_, ?_, ?_, ?_⟩
  · unfold normalize_points
    rw [ha]
    exact congrArg Except.ok (hsCollect_eq_self _ hmapnd)
  · simp
  · have : a.wsub a = Point.mk 0 0 := by
      simp [Point.wsub, wrap16]
    exact this ▸ List.mem_map_of_mem _ hamem
  · intro hnu r hrmem
    obtain ⟨q, hq, rfl⟩ := List.mem_map.mp hrmem
    unfold NoUnderflowX at hnu
    rw [ha] at hnu
    have h1 : q.x ≤ a.x := hamax q hq
    have h2 : a.x - q.x ≤ 32768 := hnu q hq
    simp only [Point.wsub]
    rw [wrap16_eq_self _ (by omega) (by omega)]
    omega

/-- Witness for `normalize_points_spec` at a concrete two-point set. -/
theorem normalize_points_spec_witness :
    ([Point.mk 0 0, Point.mk 1 0] ≠ [] ∧
      ([Point.mk 0 0, Point.mk 1 0] : List Point).Nodup ∧
      InRangeAll [Point.mk 0 0, Point.mk 1 0]) ∧
    (∃ ns, normalize_points [Point.mk 0 0, Point.mk 1 0] = .ok ns ∧
      ns.length = 2 ∧ Point.mk 0 0 ∈ ns ∧
      (NoUnderflowX [Point.mk 0 0, Point.mk 1 0] → ∀ r ∈ ns, r.x ≤ 0)) :=
  ⟨⟨by decide, by decide, by decide⟩,
    normalize_points_spec [Point.mk 0 0, Point.mk 1 0]
      (by decide) (by decide) (by decide)⟩

/-- Counterexample to C10 as stated: at `i16` extremes the wrapping
subtraction produces the point `(1, 0)` with `x > 0` in the normalized
set (claim says no member has `x > 0`). -/
theorem normalize_points_overflow_cex :
    normalize_points [Point.mk (-32768) 0, Point.mk 32767 0] =
      .ok [Point.mk 1 0, Point.mk 0 0] ∧
    Point.mk 1 0 ∈ [Point.mk 1 0, Point.mk 0 0] ∧ (0 : Int) < (Point.mk 1 0).x := by
  exact ⟨rfl, by decide, by decide⟩

/-! ## The parser: `read_log_to_canvas` and `try_parse` (C8) -/

/-- The information content of a parse error: `badLine` is the
`"Line is formatted improperly"` error for a wrong field count (it
carries no field name and no line number); `badField role lnum` is the
diagnostic of `try_parse`, naming the field's role and the 0-based
line number. -/
inductive LogError where
  | badLine : LogError
  | badField : String → Nat → LogError
deriving DecidableEq, Repr

/-- `line.split(' ')`: split at every single space, keeping empty
fields. -/
def splitOnSpace : List Char → List (List Char)
  | [] => [[]]
  | c :: rest =>
      match splitOnSpace rest with
      | [] => [[c]]
      | h :: t => if c = ' ' then [] :: h :: t else (c :: h) :: t

/-- `s.trim_end_matches(',')`: strip all trailing commas. -/
def stripTrailingCommas (l : List Char) : List Char :=
  (l.reverse.dropWhile (fun c => c = ',')).reverse

/-- Numeric value of a decimal digit character. -/
def digitVal (c : Char) : Option Nat :=
  if '0' ≤ c ∧ c ≤ '9' then some (c.toNat - 48) else none

def parseDigitsAux (acc : Nat) : List Char → Option Nat
  | [] => some acc
  | c :: rest =>
      match digitVal c with
      | none => none
      | some d => parseDigitsAux (acc * 10 + d) rest

/-- A non-empty all-digit string to its value. -/
def parseDigits : List Char → Option Nat
  | [] => none
  | l => parseDigitsAux 0 l

/-- Rust `FromStr` for an unsigned integer type with maximum `bound`:
an optional leading `'+'`, one or more digits, value within bounds. -/
def parseUnsigned (bound : Nat) (l : List Char) : Option Nat :=
  let digits := match l with
    | '+' :: rest => rest
    | _ => l
  match parseDigits digits with
  | some v => if v ≤ bound then some v else none
  | none => none

/-- Rust `FromStr` for `i16`: optional sign, digits, `i16` bounds. -/
def parseSignedI16 (l : List Char) : Option Int :=
  match l with
  | '+' :: rest =>
      (parseDigits rest).bind (fun v => if v ≤ 32767 then some (Int.ofNat v) else none)
  | '-' :: rest =>
      (parseDigits rest).bind (fun v => if v ≤ 32768 then some (-(Int.ofNat v)) else none)
  | _ =>
      (parseDigits l).bind (fun v => if v ≤ 32767 then some (Int.ofNat v) else none)

/-- Sequencing of fallible steps (`?` propagation in the source). -/
def chain {α β : Type} (x : Except LogError α) (f : α → Except LogError β) :
    Except LogError β :=
  match x with
  | .error e => .error e
  | .ok a => f a

/-- `try_parse` from the source: a failed parse yields the diagnostic
naming the field's role and the 0-based line number. -/
def try_parse {α} (parsed : Option α) (name : String) (line_num : Nat) :
    Except LogError α :=
  match parsed with
  | some v => .ok v
  | none => .error (.badField name line_num)

theorem chain_error {α β : Type} (e : LogError) (f : α → Except LogError β) :
    chain (.error e) f = .error e := rfl

theorem chain_ok {α β : Type} (a : α) (f : α → Except LogError β) :
    chain (.ok a) f = f a := rfl

theorem try_parse_none {α} (name : String) (lnum : Nat) :
    try_parse (none : Option α) name lnum = .error (.badField name lnum) := rfl

theorem try_parse_some {α} (v : α) (name : String) (lnum : Nat) :
    try_parse (some v) name lnum = .ok v := rfl

/-- One line of `read_log_to_canvas`: split into fields (stripping
trailing commas), require exactly six, then parse artist, x, y, red,
green, blue in order. -/
def parseLine (line : List Char) (lnum : Nat) : Except LogError CanvasPixel :=
  match (splitOnSpace line).map stripTrailingCommas with
  | [f0, f1, f2, f3, f4, f5] =>
      chain (try_parse (parseUnsigned 4294967295 f0) "artist" lnum) fun artist =>
      chain (try_parse (parseSignedI16 f1) "x" lnum) fun x =>
      chain (try_parse (parseSignedI16 f2) "y" lnum) fun y =>
      chain (try_parse (parseUnsigned 255 f3) "red" lnum) fun red =>
      chain (try_parse (parseUnsigned 255 f4) "green" lnum) fun green =>
      chain (try_parse (parseUnsigned 255 f5) "blue" lnum) fun blue =>
      .ok ⟨artist, ⟨x, y⟩, ⟨red, green, blue⟩⟩
  | _ => .error .badLine

def readLogAux (lnum : Nat) : List (List Char) → Except LogError Canvas
  | [] => .ok []
  | line :: rest =>
      chain (parseLine line lnum) fun px =>
      chain (readLogAux (lnum + 1) rest) fun c =>
      .ok (px :: c)

/-- `read_log_to_canvas` from the source: parse every line with its
0-based index, aborting at the first malformed line. -/
def read_log_to_canvas (lines : List (List Char)) : Except LogError Canvas :=
  readLogAux 0 lines

/-- The role names used by the six `try_parse` calls. -/
def fieldRoles : List String := ["artist", "x", "y", "red", "green", "blue"]

/-- C8 as stated: every parse error (wrong field count included) names
a field role and the 0-based line number. -/
def ClaimC8 : Prop :=
  ∀ (lines : List (List Char)) (e : LogError),
    read_log_to_canvas lines = .error e →
    ∃ role lnum, e = .badField role lnum

/-- Counterexample to C8 as stated: the three-field line `"1 2 3"`
aborts the run, but its error is the generic `badLine` (in the source
the string `"Line is formatted improperly"`), which names neither a
field nor a line number. -/
theorem read_log_badLine_cex : ¬ ClaimC8 := by
  intro h
  obtain ⟨role, lnum, he⟩ := h [['1', ' ', '2', ' ', '3']] .badLine rfl
  exact LogError.noConfusion he

theorem parseLine_badLine (line : List Char) (lnum : Nat)
    (h : ((splitOnSpace line).map stripTrailingCommas).length ≠ 6) :
    parseLine line lnum = .error .badLine := by
  unfold parseLine
  split
  · rename_i f0 f1 f2 f3 f4 f5 heq
    rw [heq] at h
    simp at h
  · rfl

theorem parseLine_badField (line : List Char) (lnum : Nat) (role : String)
    (l' : Nat) (h : parseLine line lnum = .error (.badField role l')) :
    role ∈ fieldRoles ∧ l' = lnum := by
  have finish : ∀ name : String, name ∈ fieldRoles →
      (Except.error (ε := LogError) (α := CanvasPixel) (.badField name lnum) =
        .error (.badField role l')) → role ∈ fieldRoles ∧ l' = lnum := by
    intro name hname heq
    injection heq with heq
    injection heq with h1 h2
    exact ⟨h1 ▸ hname, h2.symm⟩
  unfold parseLine at h
  split at h
  · rename_i f0 f1 f2 f3 f4 f5 hfields
    rcases hp0 : parseUnsigned 4294967295 f0 with _ | v0 <;> rw [hp0] at h
    · rw [try_parse_none, chain_error] at h
      exact finish "artist" (by simp [fieldRoles]) h
    rw [try_parse_some, chain_ok] at h
    rcases hp1 : parseSignedI16 f1 with _ | v1 <;> rw [hp1] at h
    · rw [try_parse_none, chain_error] at h
      exact finish "x" (by simp [fieldRoles]) h
    rw [try_parse_some, chain_ok] at h
    rcases hp2 : parseSignedI16 f2 with _ | v2 <;> rw [hp2] at h
    · rw [try_parse_none, chain_error] at h
      exact finish "y" (by simp [fieldRoles]) h
    rw [try_parse_some, chain_ok] at h
    rcases hp3 : parseUnsigned 255 f3 with _ | v3 <;> rw [hp3] at h
    · rw [try_parse_none, chain_error] at h
      exact finish "red" (by simp [fieldRoles]) h
    rw [try_parse_some, chain_ok] at h
    rcases hp4 : parseUnsigned 255 f4 with _ | v4 <;> rw [hp4] at h
    · rw [try_parse_none, chain_error] at h
      exact finish "green" (by simp [fieldRoles]) h
    rw [try_parse_some, chain_ok] at h
    rcases hp5 : parseUnsigned 255 f5 with _ | v5 <;> rw [hp5] at h
    · rw [try_parse_none, chain_error] at h
      exact finish "blue" (by simp [fieldRoles]) h
    rw [try_parse_some, chain_ok] at h
    exact absurd h (by simp)
  · exact absurd h (by simp)

theorem readLogAux_abort (pre : List (List Char)) (start : Nat)
    (line : List Char) (post : List (List Char)) (e : LogError)
    (hok : ∀ i (h : i < pre.length),
      ∃ px, parseLine (pre.get ⟨i, h⟩) (start + i) = .ok px)
    (herr : parseLine line (start + pre.length) = .error e) :
    readLogAux start (pre ++ line :: post) = .error e := by
  induction pre generalizing start with
  | nil =>
      simp only [List.nil_append, readLogAux]
      simp only [List.length_nil, Nat.add_zero] at herr
      rw [herr, chain_error]
  | cons l0 rest ih =>
      obtain ⟨px, hpx⟩ := hok 0 (by simp)
      simp only [List.get, Nat.add_zero] at hpx
      rw [List.cons_append]
      simp only [readLogAux]
      rw [hpx, chain_ok]
      have hok' : ∀ i (h : i < rest.length),
          ∃ px, parseLine (rest.get ⟨i, h⟩) (start + 1 + i) = .ok px := by
        intro i hi
        have := hok (i + 1) (by simpa using Nat.succ_lt_succ hi)
        simpa [List.get, Nat.add_assoc, Nat.add_comm 1 i] using this
      have herr' : parseLine line (start + 1 + rest.length) = .error e := by
        have harith : start + (l0 :: rest).length = start + 1 + rest.length := by
          simp [Nat.add_assoc, Nat.add_comm 1 rest.length]
        rwa [harith] at herr
      rw [ih (start + 1) hok' herr', chain_error]

/-- Amended C8: a field that fails to parse yields an error naming the
field's role (one of the six) and the 0-based line number, and the run
aborts at the first bad line without building a model; a line with
other than six fields also aborts immediately, but its error (`"Line
is formatted improperly"` in the source) names neither a field nor a
line number. -/
theorem read_log_error_reporting :
    (∀ (line : List Char) (lnum : Nat),
        ((splitOnSpace line).map stripTrailingCommas).length ≠ 6 →
        parseLine line lnum = .error .badLine) ∧
    (∀ (line : List Char) (lnum : Nat) (role : String) (l' : Nat),
        parseLine line lnum = .error (.badField role l') →
        role ∈ fieldRoles ∧ l' = lnum) ∧
    (∀ (pre : List (List Char)) (line : List Char)
        (post : List (List Char)) (e : LogError),
        (∀ i (h : i < pre.length),
          ∃ px, parseLine (pre.get ⟨i, h⟩) i = .ok px) →
        parseLine line pre.length = .error e →
        read_log_to_canvas (pre ++ line :: post) = .error e) := by
  refine ⟨parseLine_badLine, parseLine_badField, ?_⟩
  intro pre line post e hok herr
  unfold read_log_to_canvas
  exact readLogAux_abort pre 0 line post e (by simpa using hok) (by simpa using herr)

/-- Witness for `read_log_error_reporting`: a three-field line gives
the nameless `badLine` error, and a log whose second (0-based index 1)
line has an unparsable `x` field aborts with `badField "x" 1`. -/
theorem read_log_error_reporting_witness :
    parseLine ("1 2 3").toList 0 = .error .badLine ∧
    read_log_to_canvas [("1 2 3 4 5 6").toList, ("1 z 3 4 5 6").toList] =
      .error (.badField "x" 1) := by
  constructor
  · exact read_log_error_reporting.1 ("1 2 3").toList 0 (by decide)
  · refine read_log_error_reporting.2.2 [("1 2 3 4 5 6").toList]
      ("1 z 3 4 5 6").toList [] (.badField "x" 1) ?_ rfl
    intro i h
    simp only [List.length_singleton] at h
    have hi : i = 0 := by omega
    subst hi
    exact ⟨⟨1, ⟨2, 3⟩, ⟨4, 5, 6⟩⟩, rfl⟩

/-! ## `check_colors_unique` (C6) -/

/-- Lookup in the `color_set` map of `check_colors_unique`. -/
def lookupColor : List (Color × Nat) → Color → Option Nat
  | [], _ => none
  | (c, a) :: rest, col => if c = col then some a else lookupColor rest col

/-- The event walk of `check_colors_unique`: the first artist seen with
a color claims it; a later event by a different artist with that color
appends the violation `(offender, color, claimant)`; a later event by
the claimant is skipped. -/
def ccuAux (color_set : List (Color × Nat)) : Canvas → List (Nat × Color × Nat)
  | [] => []
  | px :: rest =>
      match lookupColor color_set px.color with
      | some artist =>
          if artist = px.artist then ccuAux color_set rest
          else (px.artist, px.color, artist) :: ccuAux color_set rest
      | none => ccuAux ((px.color, px.artist) :: color_set) rest

/-- `check_colors_unique` from the source, as its violation list in
emission order. -/
def check_colors_unique (canvas : Canvas) : List (Nat × Color × Nat) :=
  ccuAux [] canvas

/-- The artist of the first event in `canvas` using `col`. -/
def firstClaimant (canvas : Canvas) (col : Color) : Option Nat :=
  match canvas with
  | [] => none
  | px :: rest => if px.color = col then some px.artist else firstClaimant rest col

/-- Follows the spec's words for §4.3: one violation
`{color, claimant, offender}` for every event whose artist differs
from the color's first claimant, in log order, all collected. -/
def specColorViolations (canvas : Canvas) : List (Nat × Color × Nat) :=
  canvas.filterMap (fun px =>
    match firstClaimant canvas px.color with
    | some a => if a = px.artist then none else some (px.artist, px.color, a)
    | none => none)

theorem firstClaimant_append (l1 l2 : Canvas) (col : Color) :
    firstClaimant (l1 ++ l2) col =
      match firstClaimant l1 col with
      | some a => some a
      | none => firstClaimant l2 col := by
  induction l1 with
  | nil => simp [firstClaimant]
  | cons px rest ih =>
      simp only [List.cons_append, firstClaimant]
      by_cases hc : px.color = col
      · simp [hc]
      · simp only [if_neg hc]
        exact ih

theorem ccuAux_spec (c : Canvas) : ∀ (pre : Canvas) (reg : List (Color × Nat)),
    (∀ col, lookupColor reg col = firstClaimant pre col) →
    ccuAux reg c = c.filterMap (fun px =>
      match firstClaimant (pre ++ c) px.color with
      | some a => if a = px.artist then none else some (px.artist, px.color, a)
      | none => none) := by
  induction c with
  | nil => intro pre reg hinv; simp [ccuAux]
  | cons px rest ih =>
      intro pre reg hinv
      have hassoc : pre ++ px :: rest = (pre ++ [px]) ++ rest := by simp
      simp only [ccuAux, List.filterMap_cons]
      cases hl : lookupColor reg px.color with
      | some a =>
          have hfc : firstClaimant pre px.color = some a := by rw [← hinv]; exact hl
          have hfull : firstClaimant (pre ++ px :: rest) px.color = some a := by
            rw [firstClaimant_append, hfc]
          have hinv' : ∀ col, lookupColor reg col = firstClaimant (pre ++ [px]) col := by
            intro col
            rw [firstClaimant_append, hinv col]
            cases hp : firstClaimant pre col with
            | some b => rfl
            | none =>
                by_cases hcol : px.color = col
                · rw [← hcol] at hp
                  rw [hfc] at hp
                  exact Option.noConfusion hp
                · simp [firstClaimant, hcol]
          have hrec := ih (pre ++ [px]) reg hinv'
          rw [← hassoc] at hrec
          rw [hfull]
          by_cases ha : a = px.artist
          · simp only [if_pos ha]
            rw [hrec]
          · simp only [if_neg ha]
            rw [hrec]
      | none =>
          have hfc : firstClaimant pre px.color = none := by rw [← hinv]; exact hl
          have hfull : firstClaimant (pre ++ px :: rest) px.color = some px.artist := by
            rw [firstClaimant_append, hfc]
            simp [firstClaimant]
          have hinv' : ∀ col,
              lookupColor ((px.color, px.artist) :: reg) col =
                firstClaimant (pre ++ [px]) col := by
            intro col
            rw [firstClaimant_append]
            simp only [lookupColor]
            by_cases hcol : px.color = col
            · rw [← hcol, hfc]
              simp [firstClaimant]
            · simp only [if_neg hcol]
              rw [hinv col]
              cases hp : firstClaimant pre col with
              | some b => rfl
              | none => simp [firstClaimant, hcol]
          have hrec := ih (pre ++ [px]) ((px.color, px.artist) :: reg) hinv'
          rw [← hassoc] at hrec
          rw [hfull]
          rw [hrec]
          simp

/-- C6: `check_colors_unique` walks the log once and returns exactly
one violation `(offender, color, claimant)` for every event whose
artist is not the color's first claimant; the claimant's own later
events yield nothing, and every such violation is collected. -/
theorem check_colors_unique_spec (canvas : Canvas) :
    check_colors_unique canvas = specColorViolations canvas := by
  unfold check_colors_unique specColorViolations
  have := ccuAux_spec canvas [] [] (fun col => rfl)
  simpa using this

/-! ## `check_no_overlapping` (C4) -/

/-- The body of the nested loop of `check_no_overlapping` for one
ordered pair of map entries: skip the diagonal, report the pair with
its intersection when that is non-empty. -/
def overlapEntry (as bs : Nat × List Point) : Option (Nat × Nat × List Point) :=
  if as.1 = bs.1 then none
  else if 0 < (as.2.filter (fun p => p ∈ bs.2)).length then
    some (as.1, bs.1, as.2.filter (fun p => p ∈ bs.2))
  else none

/-- `check_no_overlapping` from the source: both nested loops run over
the whole map, so each ordered pair of distinct artists is visited. -/
def check_no_overlapping (posns_map : PosnsMap) : List (Nat × Nat × List Point) :=
  posns_map.flatMap (fun as => posns_map.filterMap (fun bs => overlapEntry as bs))

/-- The violation-selection predicate for the ordered pair `(a, b)`. -/
def pairSel (a b : Nat) (v : Nat × Nat × List Point) : Bool :=
  decide (v.1 = a) && decide (v.2.1 = b)

theorem overlapEntry_some (as bs : Nat × List Point) (v : Nat × Nat × List Point)
    (h : overlapEntry as bs = some v) : v.1 = as.1 ∧ v.2.1 = bs.1 := by
  unfold overlapEntry at h
  split at h
  · exact Option.noConfusion h
  · split at h
    · cases h; exact ⟨rfl, rfl⟩
    · exact Option.noConfusion h

theorem inner_filter_nil (m : PosnsMap) (a b : Nat) (sa : List Point)
    (hb : b ∉ m.map Prod.fst) :
    (m.filterMap (fun bs => overlapEntry (a, sa) bs)).filter (pairSel a b) = [] := by
  rw [List.filter_eq_nil_iff]
  intro v hv
  obtain ⟨bs, hbs, hsome⟩ := List.mem_filterMap.mp hv
  have h2 := (overlapEntry_some _ _ _ hsome).2
  unfold pairSel
  simp only [Bool.and_eq_true, decide_eq_true_eq, not_and]
  intro _ hvb
  exact hb (List.mem_map.mpr ⟨bs, hbs, by rw [← h2, hvb]⟩)

theorem inner_filter_single (m : PosnsMap) (a b : Nat) (sa sb : List Point)
    (hkeys : (m.map Prod.fst).Nodup) (hbm : (b, sb) ∈ m) (hab : a ≠ b)
    (hne : 0 < (sa.filter (fun p => p ∈ sb)).length) :
    (m.filterMap (fun bs => overlapEntry (a, sa) bs)).filter (pairSel a b) =
      [(a, b, sa.filter (fun p => p ∈ sb))] := by
  induction m with
  | nil => exact absurd hbm (by simp)
  | cons hd tl ih =>
      obtain ⟨c, sc⟩ := hd
      simp only [List.map_cons, List.nodup_cons] at hkeys
      by_cases hcb : c = b
      · subst hcb
        have hhd : sc = sb := by
          rcases List.mem_cons.mp hbm with h | h
          · injection h with h1 h2
            exact h2.symm
          · exact absurd (List.mem_map.mpr ⟨(c, sb), h, rfl⟩) hkeys.1
        subst hhd
        have hentry : overlapEntry (a, sa) (c, sc) = some (a, c, sa.filter (fun p => p ∈ sc)) := by
          unfold overlapEntry
          rw [if_neg hab, if_pos hne]
        simp only [List.filterMap_cons, hentry, List.filter_cons]
        have hsel : pairSel a c (a, c, sa.filter (fun p => p ∈ sc)) = true := by
          unfold pairSel; simp
        rw [if_pos hsel]
        rw [inner_filter_nil tl a c sa hkeys.1]
      · have hbtl : (b, sb) ∈ tl := by
          rcases List.mem_cons.mp hbm with h | h
          · exact absurd (congrArg Prod.fst h).symm hcb
          · exact h
        simp only [List.filterMap_cons]
        cases hent : overlapEntry (a, sa) (c, sc) with
        | none => exact ih hkeys.2 hbtl
        | some v =>
            have h2 := (overlapEntry_some _ _ _ hent).2
            simp only [List.filter_cons]
            have hsel : pairSel a b v = false := by
              unfold pairSel
              simp only [Bool.and_eq_false_iff, decide_eq_false_iff_not]
              right; rw [h2]; exact hcb
            rw [if_neg (by simp [hsel])]
            exact ih hkeys.2 hbtl

theorem filter_bind_overlap (m inner : PosnsMap) (a : Nat) (sa : List Point)
    (hkeys : (m.map Prod.fst).Nodup) (ham : (a, sa) ∈ m)
    (P : Nat × Nat × List Point → Bool)
    (hP : ∀ v, P v = true → v.1 = a) :
    ((m.flatMap (fun as => inner.filterMap (fun bs => overlapEntry as bs))).filter P) =
      ((inner.filterMap (fun bs => overlapEntry (a, sa) bs)).filter P) := by
  induction m with
  | nil => exact absurd ham (by simp)
  | cons hd tl ih =>
      obtain ⟨c, sc⟩ := hd
      simp only [List.map_cons, List.nodup_cons] at hkeys
      simp only [List.flatMap_cons, List.filter_append]
      by_cases hca : c = a
      · subst hca
        have hhd : sc = sa := by
          rcases List.mem_cons.mp ham with h | h
          · injection h with h1 h2
            exact h2.symm
          · exact absurd (List.mem_map.mpr ⟨(c, sa), h, rfl⟩) hkeys.1
        subst hhd
        have htl : (tl.flatMap (fun as => inner.filterMap (fun bs => overlapEntry as bs))).filter P = [] := by
          rw [List.filter_eq_nil_iff]
          intro v hv
          obtain ⟨as, has, hvmem⟩ := List.mem_flatMap.mp hv
          obtain ⟨bs, _, hsome⟩ := List.mem_filterMap.mp hvmem
          have h1 := (overlapEntry_some _ _ _ hsome).1
          intro hPv
          exact hkeys.1 (List.mem_map.mpr ⟨as, has, by rw [← h1, hP v hPv]⟩)
        rw [htl, List.append_nil]
      · have hatl : (a, sa) ∈ tl := by
          rcases List.mem_cons.mp ham with h | h
          · exact absurd (congrArg Prod.fst h).symm hca
          · exact h
        have hhd0 : (inner.filterMap (fun bs => overlapEntry (c, sc) bs)).filter P = [] := by
          rw [List.filter_eq_nil_iff]
          intro v hv
          obtain ⟨bs, _, hsome⟩ := List.mem_filterMap.mp hv
          have h1 := (overlapEntry_some _ _ _ hsome).1
          intro hPv
          exact hca (h1.symm.trans (hP v hPv))
        rw [hhd0, List.nil_append]
        exact ih hkeys.2 hatl

/-- Amended C4: when two distinct artists share a coordinate,
`check_no_overlapping` reports the pair once per ordered direction —
exactly one violation `(a, b, intersection)` and exactly one
`(b, a, intersection)`, each citing the shared coordinate — rather
than once per unordered pair. -/
theorem check_no_overlapping_pair (m : PosnsMap) (a b : Nat)
    (sa sb : List Point) (p : Point)
    (hkeys : (m.map Prod.fst).Nodup) (ham : (a, sa) ∈ m) (hbm : (b, sb) ∈ m)
    (hab : a ≠ b) (hpa : p ∈ sa) (hpb : p ∈ sb) :
    (check_no_overlapping m).filter (pairSel a b) =
      [(a, b, sa.filter (fun q => q ∈ sb))] ∧
    (check_no_overlapping m).filter (pairSel b a) =
      [(b, a, sb.filter (fun q => q ∈ sa))] ∧
    p ∈ sa.filter (fun q => q ∈ sb) ∧ p ∈ sb.filter (fun q => q ∈ sa) := by
  have hpab : p ∈ sa.filter (fun q => q ∈ sb) := by
    rw [List.mem_filter]; exact ⟨hpa, by simpa using hpb⟩
  have hpba : p ∈ sb.filter (fun q => q ∈ sa) := by
    rw [List.mem_filter]; exact ⟨hpb, by simpa using hpa⟩
  refine ⟨?_, ?_, hpab, hpba⟩
  · rw [check_no_overlapping,
      filter_bind_overlap m m a sa hkeys ham (pairSel a b)
        (fun v hv => by unfold pairSel at hv; simp at hv; exact hv.1)]
    exact inner_filter_single m a b sa sb hkeys hbm hab
      (List.length_pos.mpr (by intro hnil; rw [hnil] at hpab; simp at hpab))
  · rw [check_no_overlapping,
      filter_bind_overlap m m b sb hkeys hbm (pairSel b a)
        (fun v hv => by unfold pairSel at hv; simp at hv; exact hv.1)]
    exact inner_filter_single m b a sb sa hkeys ham (fun h => hab h.symm)
      (List.length_pos.mpr (by intro hnil; rw [hnil] at hpba; simp at hpba))

/-- Witness for `check_no_overlapping_pair` on a concrete two-artist
overlap at `(0,0)`. -/
theorem check_no_overlapping_pair_witness :
    ((([(1, [Point.mk 0 0]), (2, [Point.mk 0 0])] : PosnsMap).map
        Prod.fst).Nodup ∧ (1 : Nat) ≠ 2) ∧
    (check_no_overlapping [(1, [Point.mk 0 0]), (2, [Point.mk 0 0])]).filter
        (pairSel 1 2) =
      [(1, 2, [Point.mk 0 0])] :=
  ⟨⟨by decide, by decide⟩,
    (check_no_overlapping_pair [(1, [Point.mk 0 0]), (2, [Point.mk 0 0])] 1 2
      [Point.mk 0 0] [Point.mk 0 0] (Point.mk 0 0) (by decide) (by decide)
      (by decide) (by decide) (by decide) (by decide)).1⟩

/-- Counterexample to C4 as stated: with artists 1 and 2 both painting
`(0,0)`, the checker emits two violations for the unordered pair —
one per iteration direction — not exactly one. -/
theorem check_no_overlapping_cex :
    check_no_overlapping [(1, [Point.mk 0 0]), (2, [Point.mk 0 0])] =
      [(1, 2, [Point.mk 0 0]), (2, 1, [Point.mk 0 0])] ∧
    (check_no_overlapping [(1, [Point.mk 0 0]), (2, [Point.mk 0 0])]).length = 2 := by
  constructor
  · rfl
  · rfl

/-! ## `check_no_repeating_patterns` (C5, C1) -/

/-- `set.is_subset(other)` on list-represented sets. -/
def listSubset (s t : List Point) : Bool := s.all (fun p => decide (p ∈ t))

/-- Equality of list-represented sets (mutual inclusion). -/
def setEq (s t : List Point) : Prop := s ⊆ t ∧ t ⊆ s

instance (s t : List Point) : Decidable (setEq s t) := by
  unfold setEq; infer_instance

/-- Insertion into the `duplicates : HashSet<(usize, usize)>`. -/
def insertPair (acc : List (Nat × Nat)) (pr : Nat × Nat) : List (Nat × Nat) :=
  if pr ∈ acc then acc else acc ++ [pr]

/-- The double loop of `check_no_repeating_patterns` over the indexed
normalized sets: a pair of distinct indices whose sets are mutual
subsets records `(min, max)` in the duplicate set. -/
def dupPairs (ns : List (List Point)) : List (Nat × Nat) :=
  ns.enum.foldl (fun acc is =>
    ns.enum.foldl (fun acc js =>
      if is.1 = js.1 then acc
      else if listSubset is.2 js.2 && listSubset js.2 is.2 then
        insertPair acc (min is.1 js.1, max is.1 js.1)
      else acc) acc) []

/-- `.map(|set| normalize_points(set).expect(..)).collect()`: `none`
models the panic on any `Err`. -/
def normalizeAll : List (List Point) → Option (List (List Point))
  | [] => some []
  | s :: rest =>
      match normalize_points s with
      | .error _ => none
      | .ok n => (normalizeAll rest).map (fun ns => n :: ns)

/-- `check_no_repeating_patterns` from the source: normalize every
occupancy set in map order (panicking — `none` — if any is empty),
then collect the duplicate index pairs. -/
def check_no_repeating_patterns (posns_map : PosnsMap) :
    Option (List (Nat × Nat)) :=
  match normalizeAll (posns_map.map Prod.snd) with
  | none => none
  | some ns => some (dupPairs ns)

theorem normalize_points_nil :
    normalize_points [] = .error "Error finding rightmost point in the set of points." := rfl

theorem normalizeAll_none_of_mem_nil (ls : List (List Point))
    (h : [] ∈ ls) : normalizeAll ls = none := by
  induction ls with
  | nil => simp at h
  | cons s rest ih =>
      rcases List.mem_cons.mp h with h | h
      · rw [← h]
        rfl
      · unfold normalizeAll
        cases hn : normalize_points s with
        | error e => rfl
        | ok n => rw [ih h]; rfl

/-- Amended C5: an artist with an empty occupancy set is reported by
the minimum-count check (threshold 1, as in `main`), but
`check_no_repeating_patterns` panics on it (`expect` on the `Err` of
`normalize_points`) instead of excluding it from shape comparisons.
Inside `main` the panic is unreachable because built occupancy sets
are never empty (`buildPosns_nonempty`). -/
theorem zero_pixel_artist (m : PosnsMap) (a : Nat)
    (hm : (a, ([] : List Point)) ∈ m) :
    (a, 0) ∈ check_all_artists_draw m 1 ∧
      check_no_repeating_patterns m = none := by
  constructor
  · unfold check_all_artists_draw
    exact List.mem_map.mpr ⟨(a, []), List.mem_filter.mpr ⟨hm, rfl⟩, rfl⟩
  · unfold check_no_repeating_patterns
    rw [normalizeAll_none_of_mem_nil (m.map Prod.snd)
      (List.mem_map.mpr ⟨(a, []), hm, rfl⟩)]

/-- Witness for `zero_pixel_artist` at the one-entry map with an empty
set. -/
theorem zero_pixel_artist_witness :
    (1, ([] : List Point)) ∈ ([(1, ([] : List Point))] : PosnsMap) ∧
    ((1, 0) ∈ check_all_artists_draw [(1, ([] : List Point))] 1 ∧
      check_no_repeating_patterns [(1, ([] : List Point))] = none) :=
  ⟨by decide, zero_pixel_artist [(1, ([] : List Point))] 1 (by decide)⟩

/-- Counterexample to C5 as stated: handed an empty occupancy set, the
pattern checker does not exclude the artist — it panics (modelled as
`none`). -/
theorem pattern_checker_empty_set_cex :
    check_no_repeating_patterns [(1, ([] : List Point))] = none := rfl

/-! ## Translation invariance of normalization (C1) -/

/-- The set has exactly one point of maximal `x` (the anchor choice in
`normalize_points` is then order-independent). -/
def UniqueMaxX (p : List Point) : Prop :=
  (p.filter (fun r => p.all (fun t => decide (t.x ≤ r.x)))).length = 1

instance (p : List Point) : Decidable (UniqueMaxX p) := by
  unfold UniqueMaxX; infer_instance

/-- All coordinate differences from the anchor stay inside `i16`, so
the wrapping subtraction in `normalize_points` is exact. -/
def NoWrap (p : List Point) : Prop :=
  match rustMax p with
  | none => True
  | some a => ∀ r ∈ p, InI16 (r.x - a.x) ∧ InI16 (r.y - a.y)

instance (p : List Point) : Decidable (NoWrap p) := by
  unfold NoWrap
  cases rustMax p with
  | none => exact isTrue trivial
  | some a => infer_instance

/-- "Identical up to pure translation": the second occupancy set is,
as a set, the first shifted by one fixed offset. -/
def Translates (p q : List Point) : Prop :=
  ∃ d : Point, setEq q (p.map (fun r => r.add d))

/-- "Normalized sets are equal in size and membership": both
normalizations succeed and agree as sets and in cardinality. -/
def NormEq (p q : List Point) : Prop :=
  ∃ np nq, normalize_points p = .ok np ∧ normalize_points q = .ok nq ∧
    setEq np nq ∧ np.length = nq.length

theorem hsCollect_nodup_aux (l acc : List Point) (h : acc.Nodup) :
    (l.foldl (fun acc p => if p ∈ acc then acc else acc ++ [p]) acc).Nodup := by
  induction l generalizing acc with
  | nil => simpa using h
  | cons p rest ih =>
      simp only [List.foldl_cons]
      by_cases hp : p ∈ acc
      · rw [if_pos hp]; exact ih acc h
      · rw [if_neg hp]
        refine ih (acc ++ [p]) ?_
        simp [List.nodup_append, h, hp]

theorem hsCollect_nodup (l : List Point) : (hsCollect l).Nodup :=
  hsCollect_nodup_aux l [] List.nodup_nil

theorem normalize_points_eq (p : List Point) (a : Point)
    (ha : rustMax p = some a) :
    normalize_points p = .ok (hsCollect (p.map (fun r => r.wsub a))) := by
  unfold normalize_points
  rw [ha]

theorem normalize_points_ok_of_ne_nil (p : List Point) (hne : p ≠ []) :
    ∃ a, rustMax p = some a ∧
      normalize_points p = .ok (hsCollect (p.map (fun r => r.wsub a))) := by
  obtain ⟨hd, tl, rfl⟩ := List.exists_cons_of_ne_nil hne
  obtain ⟨a, ha⟩ := rustMax_cons hd tl
  exact ⟨a, ha, normalize_points_eq _ a ha⟩

/-- With a unique maximal-`x` point, any maximal member equals the
anchor `rustMax` returns, whatever the iteration order. -/
theorem maxX_unique (p : List Point) (a : Point) (ha : rustMax p = some a)
    (hu : UniqueMaxX p) (r : Point) (hr : r ∈ p) (hmax : ∀ t ∈ p, t.x ≤ r.x) :
    r = a := by
  have hafil : a ∈ p.filter (fun r => p.all (fun t => decide (t.x ≤ r.x))) := by
    rw [List.mem_filter]
    refine ⟨rustMax_mem p a ha, ?_⟩
    rw [List.all_eq_true]
    intro t ht
    exact decide_eq_true (rustMax_maxX p a ha t ht)
  have hrfil : r ∈ p.filter (fun r => p.all (fun t => decide (t.x ≤ r.x))) := by
    rw [List.mem_filter]
    refine ⟨hr, ?_⟩
    rw [List.all_eq_true]
    intro t ht
    exact decide_eq_true (hmax t ht)
  obtain ⟨u, hu1⟩ := List.length_eq_one.mp hu
  rw [hu1, List.mem_singleton] at hafil hrfil
  rw [hafil, hrfil]

theorem wsub_add_cancel (s a d : Point) :
    (s.add d).wsub (a.add d) = s.wsub a := by
  simp only [Point.add, Point.wsub, Point.mk.injEq]
  constructor
  · exact congrArg wrap16 (by ring)
  · exact congrArg wrap16 (by ring)

theorem mem_normalized (p : List Point) (a : Point) (r : Point) :
    r ∈ hsCollect (p.map (fun s => s.wsub a)) ↔ ∃ s ∈ p, r = s.wsub a := by
  rw [mem_hsCollect]
  simp only [List.mem_map]
  constructor
  · rintro ⟨s, hs, rfl⟩; exact ⟨s, hs, rfl⟩
  · rintro ⟨s, hs, rfl⟩; exact ⟨s, hs, rfl⟩

theorem setEq_length_eq (s t : List Point) (hs : s.Nodup) (ht : t.Nodup)
    (h : setEq s t) : s.length = t.length := by
  refine (List.perm_ext_iff_of_nodup hs ht).mpr ?_ |>.length_eq
  intro a
  exact ⟨fun hm => h.1 hm, fun hm => h.2 hm⟩

/-- Forward half of amended C1: with a unique maximal-`x` point on
both sides, translated occupancy sets normalize to equal sets. -/
theorem translates_normEq (p q : List Point) (hpne : p ≠ []) (hqne : q ≠ [])
    (huq : UniqueMaxX q) (ht : Translates p q) :
    NormEq p q := by
  obtain ⟨d, hq_sub, hmap_sub⟩ := ht
  obtain ⟨ap, hap, hnormp⟩ := normalize_points_ok_of_ne_nil p hpne
  obtain ⟨bq, hbq, hnormq⟩ := normalize_points_ok_of_ne_nil q hqne
  have hapd_mem : ap.add d ∈ q :=
    hmap_sub (List.mem_map_of_mem _ (rustMax_mem p ap hap))
  have hapd_max : ∀ t ∈ q, t.x ≤ (ap.add d).x := by
    intro t ht
    obtain ⟨s, hs, rfl⟩ := List.mem_map.mp (hq_sub ht)
    simp only [Point.add]
    have := rustMax_maxX p ap hap s hs
    omega
  have hbq_eq : ap.add d = bq := maxX_unique q bq hbq huq _ hapd_mem hapd_max
  refine ⟨hsCollect (p.map (fun r => r.wsub ap)),
    hsCollect (q.map (fun r => r.wsub bq)), hnormp, hnormq, ?_, ?_⟩
  · constructor
    · intro r hr
      obtain ⟨s, hs, rfl⟩ := (mem_normalized p ap r).mp hr
      refine (mem_normalized q bq _).mpr ⟨s.add d, ?_, ?_⟩
      · exact hmap_sub (List.mem_map_of_mem _ hs)
      · rw [← hbq_eq, wsub_add_cancel]
    · intro r hr
      obtain ⟨u, hu', rfl⟩ := (mem_normalized q bq r).mp hr
      obtain ⟨s, hs, rfl⟩ := List.mem_map.mp (hq_sub hu')
      refine (mem_normalized p ap _).mpr ⟨s, hs, ?_⟩
      rw [← hbq_eq, wsub_add_cancel]
  · -- lengths from nodup + set equality
    refine setEq_length_eq _ _ (hsCollect_nodup _) (hsCollect_nodup _) ?_
    constructor
    · intro r hr
      obtain ⟨s, hs, rfl⟩ := (mem_normalized p ap r).mp hr
      refine (mem_normalized q bq _).mpr ⟨s.add d, hmap_sub (List.mem_map_of_mem _ hs), ?_⟩
      rw [← hbq_eq, wsub_add_cancel]
    · intro r hr
      obtain ⟨u, hu', rfl⟩ := (mem_normalized q bq r).mp hr
      obtain ⟨s, hs, rfl⟩ := List.mem_map.mp (hq_sub hu')
      refine (mem_normalized p ap _).mpr ⟨s, hs, ?_⟩
      rw [← hbq_eq, wsub_add_cancel]

/-- Backward half of amended C1: when no coordinate difference wraps,
equal normalized sets force the occupancy sets to be translates. -/
theorem normEq_translates (p q : List Point) (hwp : NoWrap p) (hwq : NoWrap q)
    (hne : NormEq p q) : Translates p q := by
  obtain ⟨np, nq, hnp, hnq, ⟨hs1, hs2⟩, _⟩ := hne
  have hpne : p ≠ [] := by
    intro h; subst h
    rw [normalize_points_nil] at hnp
    exact Except.noConfusion hnp
  have hqne : q ≠ [] := by
    intro h; subst h
    rw [normalize_points_nil] at hnq
    exact Except.noConfusion hnq
  obtain ⟨ap, hap, hnormp⟩ := normalize_points_ok_of_ne_nil p hpne
  obtain ⟨aq, haq, hnormq⟩ := normalize_points_ok_of_ne_nil q hqne
  rw [hnormp] at hnp
  rw [hnormq] at hnq
  injection hnp with hnp
  injection hnq with hnq
  subst hnp
  subst hnq
  unfold NoWrap at hwp hwq
  rw [hap] at hwp
  rw [haq] at hwq
  have hunwrapP : ∀ r ∈ p, r.wsub ap = ⟨r.x - ap.x, r.y - ap.y⟩ := by
    intro r hr
    obtain ⟨hx, hy⟩ := hwp r hr
    simp only [Point.wsub, Point.mk.injEq]
    exact ⟨wrap16_eq_self _ hx.1 hx.2, wrap16_eq_self _ hy.1 hy.2⟩
  have hunwrapQ : ∀ u ∈ q, u.wsub aq = ⟨u.x - aq.x, u.y - aq.y⟩ := by
    intro u hu'
    obtain ⟨hx, hy⟩ := hwq u hu'
    simp only [Point.wsub, Point.mk.injEq]
    exact ⟨wrap16_eq_self _ hx.1 hx.2, wrap16_eq_self _ hy.1 hy.2⟩
  refine ⟨⟨aq.x - ap.x, aq.y - ap.y⟩, ?_, ?_⟩
  · intro u hu'
    have : u.wsub aq ∈ hsCollect (q.map (fun r => r.wsub aq)) :=
      (mem_normalized q aq _).mpr ⟨u, hu', rfl⟩
    obtain ⟨r, hr, heq⟩ := (mem_normalized p ap _).mp (hs2 this)
    rw [hunwrapQ u hu', hunwrapP r hr] at heq
    simp only [Point.mk.injEq] at heq
    refine List.mem_map.mpr ⟨r, hr, ?_⟩
    refine Point.eq_of_xy _ _ ?_ ?_
    · simp only [Point.add]
      omega
    · simp only [Point.add]
      omega
  · intro v hv
    obtain ⟨r, hr, rfl⟩ := List.mem_map.mp hv
    have : r.wsub ap ∈ hsCollect (p.map (fun s => s.wsub ap)) :=
      (mem_normalized p ap _).mpr ⟨r, hr, rfl⟩
    obtain ⟨u, hu', heq⟩ := (mem_normalized q aq _).mp (hs1 this)
    rw [hunwrapP r hr, hunwrapQ u hu'] at heq
    simp only [Point.mk.injEq] at heq
    have hru : r.add ⟨aq.x - ap.x, aq.y - ap.y⟩ = u := by
      refine Point.eq_of_xy _ _ ?_ ?_
      · simp only [Point.add]
        omega
      · simp only [Point.add]
        omega
    rw [hru]
    exact hu'

theorem insertPair_mem (acc : List (Nat × Nat)) (q pr : Nat × Nat) :
    pr ∈ insertPair acc q ↔ pr ∈ acc ∨ pr = q := by
  unfold insertPair
  split
  · rename_i hq
    constructor
    · exact Or.inl
    · rintro (h | rfl)
      · exact h
      · exact hq
  · simp

theorem mem_foldl_acc {α β : Type} (F : List β → α → List β) (Q : α → β → Prop)
    (hF : ∀ acc x pr, pr ∈ F acc x ↔ pr ∈ acc ∨ Q x pr) (l : List α) :
    ∀ (acc : List β) (pr : β),
      pr ∈ l.foldl F acc ↔ pr ∈ acc ∨ ∃ x ∈ l, Q x pr := by
  induction l with
  | nil => intro acc pr; simp
  | cons hd tl ih =>
      intro acc pr
      rw [List.foldl_cons, ih, hF]
      simp only [List.mem_cons]
      constructor
      · rintro ((h | h) | ⟨x, hx, hQ⟩)
        · exact Or.inl h
        · exact Or.inr ⟨hd, Or.inl rfl, h⟩
        · exact Or.inr ⟨x, Or.inr hx, hQ⟩
      · rintro (h | ⟨x, (rfl | hx), hQ⟩)
        · exact Or.inl (Or.inl h)
        · exact Or.inl (Or.inr hQ)
        · exact Or.inr ⟨x, hx, hQ⟩

theorem listSubset_and_iff (s t : List Point) :
    ((listSubset s t && listSubset t s) = true) ↔ setEq s t := by
  unfold listSubset setEq
  rw [Bool.and_eq_true, List.all_eq_true, List.all_eq_true]
  constructor
  · rintro ⟨h1, h2⟩
    exact ⟨fun a ha => of_decide_eq_true (h1 a ha),
      fun a ha => of_decide_eq_true (h2 a ha)⟩
  · rintro ⟨h1, h2⟩
    exact ⟨fun a ha => decide_eq_true (h1 ha), fun a ha => decide_eq_true (h2 ha)⟩

theorem mem_dupPairs (ns : List (List Point)) (pr : Nat × Nat) :
    pr ∈ dupPairs ns ↔
      ∃ is ∈ ns.enum, ∃ js ∈ ns.enum, is.1 ≠ js.1 ∧ setEq is.2 js.2 ∧
        pr = (min is.1 js.1, max is.1 js.1) := by
  have hinner : ∀ (is : Nat × List Point) (acc : List (Nat × Nat)) (pr : Nat × Nat),
      pr ∈ ns.enum.foldl (fun acc js =>
        if is.1 = js.1 then acc
        else if listSubset is.2 js.2 && listSubset js.2 is.2 then
          insertPair acc (min is.1 js.1, max is.1 js.1)
        else acc) acc ↔
      pr ∈ acc ∨ ∃ js ∈ ns.enum, is.1 ≠ js.1 ∧ setEq is.2 js.2 ∧
        pr = (min is.1 js.1, max is.1 js.1) := by
    intro is acc pr
    refine mem_foldl_acc _
      (fun js pr => is.1 ≠ js.1 ∧ setEq is.2 js.2 ∧
        pr = (min is.1 js.1, max is.1 js.1)) ?_ ns.enum acc pr
    intro acc' js pr'
    by_cases h1 : is.1 = js.1
    · rw [if_pos h1]
      simp [h1]
    · rw [if_neg h1]
      by_cases h2 : (listSubset is.2 js.2 && listSubset js.2 is.2) = true
      · rw [if_pos h2, insertPair_mem]
        have hset := (listSubset_and_iff is.2 js.2).mp h2
        simp [h1, hset]
      · rw [if_neg h2]
        have hset : ¬ setEq is.2 js.2 := fun hc =>
          h2 ((listSubset_and_iff is.2 js.2).mpr hc)
        simp [hset]
  have houter := mem_foldl_acc
    (fun acc is => ns.enum.foldl (fun acc js =>
        if is.1 = js.1 then acc
        else if listSubset is.2 js.2 && listSubset js.2 is.2 then
          insertPair acc (min is.1 js.1, max is.1 js.1)
        else acc) acc)
    (fun is pr => ∃ js ∈ ns.enum, is.1 ≠ js.1 ∧ setEq is.2 js.2 ∧
        pr = (min is.1 js.1, max is.1 js.1))
    (fun acc is pr => hinner is acc pr) ns.enum [] pr
  unfold dupPairs
  rw [houter]
  simp

theorem setEq_symm (s t : List Point) (h : setEq s t) : setEq t s := ⟨h.2, h.1⟩

theorem mem_dupPairs_pair (ns : List (List Point)) (i j : Nat)
    (hi : i < ns.length) (hj : j < ns.length) (hij : i ≠ j) :
    ((min i j, max i j) ∈ dupPairs ns ↔ setEq ns[i] ns[j]) := by
  rw [mem_dupPairs]
  constructor
  · rintro ⟨is, his, js, hjs, hne, hset, hpr⟩
    injection hpr with h1 h2
    have hcases : (is.1 = i ∧ js.1 = j) ∨ (is.1 = j ∧ js.1 = i) := by omega
    have hgi : ns[is.1]? = some is.2 := List.mem_enum_iff_getElem?.mp his
    have hgj : ns[js.1]? = some js.2 := List.mem_enum_iff_getElem?.mp hjs
    rcases hcases with ⟨hii, hjj⟩ | ⟨hii, hjj⟩
    · rw [hii] at hgi
      rw [hjj] at hgj
      rw [List.getElem?_eq_getElem hi] at hgi
      rw [List.getElem?_eq_getElem hj] at hgj
      injection hgi with hgi
      injection hgj with hgj
      rw [hgi, hgj]
      exact hset
    · rw [hii] at hgi
      rw [hjj] at hgj
      rw [List.getElem?_eq_getElem hj] at hgi
      rw [List.getElem?_eq_getElem hi] at hgj
      injection hgi with hgi
      injection hgj with hgj
      rw [← hgi, ← hgj] at hset
      exact setEq_symm _ _ hset
  · intro hset
    refine ⟨(i, ns[i]), ?_, (j, ns[j]), ?_, by simpa using hij,
      by simpa using hset, rfl⟩
    · exact List.mem_enum_iff_getElem?.mpr (by simp [List.getElem?_eq_getElem])
    · exact List.mem_enum_iff_getElem?.mpr (by simp [List.getElem?_eq_getElem])

theorem normalizeAll_forall₂ (ls : List (List Point)) :
    ∀ ns, normalizeAll ls = some ns →
      List.Forall₂ (fun s n => normalize_points s = .ok n) ls ns := by
  induction ls with
  | nil =>
      intro ns h
      unfold normalizeAll at h
      injection h with h
      subst h
      exact .nil
  | cons s rest ih =>
      intro ns h
      cases hn : normalize_points s with
      | error e =>
          simp only [normalizeAll, hn] at h
          exact Option.noConfusion h
      | ok n =>
          cases hr : normalizeAll rest with
          | none =>
              simp only [normalizeAll, hn, hr] at h
              simp at h
          | some ns' =>
              simp only [normalizeAll, hn, hr, Option.map_some'] at h
              injection h with h
              subst h
              exact .cons hn (ih ns' hr)

theorem normalizeAll_some (ls : List (List Point)) (h : ∀ s ∈ ls, s ≠ []) :
    ∃ ns, normalizeAll ls = some ns := by
  induction ls with
  | nil => exact ⟨[], rfl⟩
  | cons s rest ih =>
      obtain ⟨a, _, hn⟩ := normalize_points_ok_of_ne_nil s (h s (by simp))
      obtain ⟨ns', hns'⟩ := ih (fun t ht => h t (by simp [ht]))
      exact ⟨hsCollect (s.map (fun r => r.wsub a)) :: ns',
        by simp only [normalizeAll, hn, hns', Option.map_some']⟩

theorem normalize_points_nodup (p np : List Point)
    (h : normalize_points p = .ok np) : np.Nodup := by
  unfold normalize_points at h
  cases hr : rustMax p with
  | none => rw [hr] at h; exact Except.noConfusion h
  | some a =>
      rw [hr] at h
      injection h with h
      rw [← h]
      exact hsCollect_nodup _

theorem normEq_iff_setEq (p q np nq : List Point)
    (hp : normalize_points p = .ok np) (hq : normalize_points q = .ok nq) :
    (NormEq p q ↔ setEq np nq) := by
  constructor
  · rintro ⟨np', nq', hp', hq', hs, _⟩
    rw [hp] at hp'
    rw [hq] at hq'
    injection hp' with hp'
    injection hq' with hq'
    subst hp'
    subst hq'
    exact hs
  · intro hs
    exact ⟨np, nq, hp, hq, hs,
      setEq_length_eq _ _ (normalize_points_nodup p np hp)
        (normalize_points_nodup q nq hq) hs⟩

/-- Amended C1: restricted to occupancy sets each having a unique
maximal-`x` point (the source's anchor rule breaks ties only by hash
iteration order) and whose anchor differences do not wrap in `i16`,
two sets are identical up to pure translation iff their normalized
sets are equal in size and membership, and
`check_no_repeating_patterns` records the unordered index pair exactly
when the normalized sets are equal. -/
theorem pattern_duplicate_iff (m : PosnsMap) (i j : Nat)
    (hi : i < m.length) (hj : j < m.length) (hij : i ≠ j)
    (hall : ∀ e ∈ m, e.2 ≠ [])
    (hup : UniqueMaxX (m[i]).2) (huq : UniqueMaxX (m[j]).2)
    (hwp : NoWrap (m[i]).2) (hwq : NoWrap (m[j]).2) :
    (Translates (m[i]).2 (m[j]).2 ↔ NormEq (m[i]).2 (m[j]).2) ∧
    ∃ dups, check_no_repeating_patterns m = some dups ∧
      ((min i j, max i j) ∈ dups ↔ NormEq (m[i]).2 (m[j]).2) := by
  have hpne : (m[i]).2 ≠ [] := hall _ (List.getElem_mem hi)
  have hqne : (m[j]).2 ≠ [] := hall _ (List.getElem_mem hj)
  constructor
  · exact ⟨fun ht => translates_normEq _ _ hpne hqne huq ht,
      fun hn => normEq_translates _ _ hwp hwq hn⟩
  · have hall2 : ∀ s ∈ m.map Prod.snd, s ≠ [] := by
      intro s hs
      obtain ⟨e, he, rfl⟩ := List.mem_map.mp hs
      exact hall e he
    obtain ⟨ns, hns⟩ := normalizeAll_some (m.map Prod.snd) hall2
    have hf := normalizeAll_forall₂ (m.map Prod.snd) ns hns
    have hlen : (m.map Prod.snd).length = ns.length := hf.length_eq
    have hmlen : (m.map Prod.snd).length = m.length := List.length_map _ _
    have hi2 : i < ns.length := by omega
    have hj2 : j < ns.length := by omega
    have hget := List.forall₂_iff_get.mp hf
    have hni : normalize_points (m[i]).2 = .ok ns[i] := by
      have := hget.2 i (by omega) hi2
      simpa [List.get_eq_getElem, List.getElem_map] using this
    have hnj : normalize_points (m[j]).2 = .ok ns[j] := by
      have := hget.2 j (by omega) hj2
      simpa [List.get_eq_getElem, List.getElem_map] using this
    refine ⟨dupPairs ns, ?_, ?_⟩
    · unfold check_no_repeating_patterns
      rw [hns]
    · exact (mem_dupPairs_pair ns i j hi2 hj2 hij).trans
        (normEq_iff_setEq (m[i]).2 (m[j]).2 ns[i] ns[j] hni hnj).symm

/-- Witness for `pattern_duplicate_iff` at a two-artist map whose sets
are horizontal dominoes. -/
theorem pattern_duplicate_iff_witness :
    ((0 : Nat) ≠ 1 ∧ UniqueMaxX [Point.mk 0 0, Point.mk 1 0] ∧
      UniqueMaxX [Point.mk 3 3, Point.mk 4 3] ∧
      NoWrap [Point.mk 0 0, Point.mk 1 0] ∧
      NoWrap [Point.mk 3 3, Point.mk 4 3]) ∧
    ((Translates [Point.mk 0 0, Point.mk 1 0] [Point.mk 3 3, Point.mk 4 3] ↔
        NormEq [Point.mk 0 0, Point.mk 1 0] [Point.mk 3 3, Point.mk 4 3]) ∧
      ∃ dups, check_no_repeating_patterns
          [(5, [Point.mk 0 0, Point.mk 1 0]),
            (7, [Point.mk 3 3, Point.mk 4 3])] = some dups ∧
        ((min 0 1, max 0 1) ∈ dups ↔
          NormEq [Point.mk 0 0, Point.mk 1 0] [Point.mk 3 3, Point.mk 4 3])) :=
  ⟨⟨by decide, by decide, by decide, by decide, by decide⟩,
    pattern_duplicate_iff
      [(5, [Point.mk 0 0, Point.mk 1 0]), (7, [Point.mk 3 3, Point.mk 4 3])]
      0 1 (by decide) (by decide) (by decide) (by decide) (by decide)
      (by decide) (by decide) (by decide)⟩

/-- Counterexample to C1 as stated: two vertical dominoes that are
exact translates of one another, presented in iteration orders that
make the `x`-only anchor rule pick misaligned anchors; their
normalized sets differ and the checker reports no duplicate. -/
theorem pattern_duplicate_cex :
    Translates [Point.mk 0 0, Point.mk 0 1] [Point.mk 1 2, Point.mk 1 1] ∧
    ¬ NormEq [Point.mk 0 0, Point.mk 0 1] [Point.mk 1 2, Point.mk 1 1] ∧
    check_no_repeating_patterns
      [(1, [Point.mk 0 0, Point.mk 0 1]), (2, [Point.mk 1 2, Point.mk 1 1])] =
      some [] := by
  refine ⟨⟨⟨1, 1⟩, by decide⟩, ?_, rfl⟩
  rintro ⟨np, nq, h1, h2, hs, _⟩
  have e1 : normalize_points [Point.mk 0 0, Point.mk 0 1] =
      .ok [Point.mk 0 (-1), Point.mk 0 0] := rfl
  have e2 : normalize_points [Point.mk 1 2, Point.mk 1 1] =
      .ok [Point.mk 0 1, Point.mk 0 0] := rfl
  rw [e1] at h1
  rw [e2] at h2
  injection h1 with h1
  injection h2 with h2
  subst h1
  subst h2
  have hmem : Point.mk 0 (-1) ∈ [Point.mk 0 1, Point.mk 0 0] := hs.1 (by decide)
  exact absurd hmem (by decide)

/-! ## The checker suite of `main` (C3, C7) -/

/-- `check_no_islands` as it stands in the source is
`unimplemented!()`: it panics unconditionally on every input. -/
def check_no_islands_code : PosnsMap → Option Unit := fun _ => none

/-- The checker sequence of `main` (lines 121-148): build the
occupancy index, then run the six checks in order; a panic (`none`)
kills the run, discarding everything after it. -/
def runChecks (canvas : Canvas) :
    Option (Option (Nat × Nat) × List (Nat × Nat) × List (Nat × Color × Nat) ×
      List (Nat × Nat × List Point) × List (Nat × Nat)) :=
  let m := buildPosns canvas
  let r1 := check_enough_artists (m.map Prod.fst) 54
  let r2 := check_all_artists_draw m 1
  let r3 := check_colors_unique canvas
  let r4 := check_no_overlapping m
  match check_no_islands_code m with
  | none => none
  | some _ =>
      match check_no_repeating_patterns m with
      | none => none
      | some r6 => some (r1, r2, r3, r4, r6)

/-- C3 fails on the code: `check_no_islands` is `unimplemented!()`,
so every run panics there, `check_no_repeating_patterns` never
executes, and the six-check suite never completes on any input. -/
theorem runChecks_never_completes (canvas : Canvas) : runChecks canvas = none := rfl

/-- One full checker pass over an already-built model (the canvas for
the color walk, the occupancy index for the rest). -/
def runSuite (m : PosnsMap) (canvas : Canvas) :
    Option (Nat × Nat) × List (Nat × Nat) × List (Nat × Color × Nat) ×
      List (Nat × Nat × List Point) × Option Unit × Option (List (Nat × Nat)) :=
  (check_enough_artists (m.map Prod.fst) 54,
   check_all_artists_draw m 1,
   check_colors_unique canvas,
   check_no_overlapping m,
   check_no_islands_code m,
   check_no_repeating_patterns m)

/-- C7: the violation reports are a pure function of the built model —
equal canvases and equal occupancy indexes (iteration order included)
yield identical reports, so two passes over the same built model are
byte-identical. -/
theorem runSuite_deterministic (m₁ m₂ : PosnsMap) (c₁ c₂ : Canvas)
    (hm : m₁ = m₂) (hc : c₁ = c₂) : runSuite m₁ c₁ = runSuite m₂ c₂ := by
  rw [hm, hc]

/-- Witness for `runSuite_deterministic` on a concrete one-event model. -/
theorem runSuite_deterministic_witness :
    (buildPosns [⟨1, ⟨0, 0⟩, ⟨1, 2, 3⟩⟩] = buildPosns [⟨1, ⟨0, 0⟩, ⟨1, 2, 3⟩⟩] ∧
      ([⟨1, ⟨0, 0⟩, ⟨1, 2, 3⟩⟩] : Canvas) = [⟨1, ⟨0, 0⟩, ⟨1, 2, 3⟩⟩]) ∧
    runSuite (buildPosns [⟨1, ⟨0, 0⟩, ⟨1, 2, 3⟩⟩]) [⟨1, ⟨0, 0⟩, ⟨1, 2, 3⟩⟩] =
      runSuite (buildPosns [⟨1, ⟨0, 0⟩, ⟨1, 2, 3⟩⟩]) [⟨1, ⟨0, 0⟩, ⟨1, 2, 3⟩⟩] :=
  ⟨⟨rfl, rfl⟩, runSuite_deterministic _ _ _ _ rfl rfl⟩

/-! ## Connectivity checker (C2), modelled from the spec

The body of `check_no_islands` is `unimplemented!()` in the source
(the spec records this in §9 and designs the checker in §4.5), so the
definitions below are modelled from the spec: a component-counting
traversal restricted to one artist's own coordinate set under
4-connectivity. -/

/-- Modelled from the spec: the four 4-connected neighbours
`(x±1,y)`, `(x,y±1)` of a coordinate. -/
def nbrs4 (p : Point) : List Point :=
  [⟨p.x + 1, p.y⟩, ⟨p.x - 1, p.y⟩, ⟨p.x, p.y + 1⟩, ⟨p.x, p.y - 1⟩]

/-- Modelled from the spec: 4-adjacency; diagonal-only contact does
not connect. -/
def adj4 (p q : Point) : Prop := q ∈ nbrs4 p

instance (p q : Point) : Decidable (adj4 p q) := by unfold adj4; infer_instance

theorem adj4_symm (p q : Point) (h : adj4 p q) : adj4 q p := by
  unfold adj4 nbrs4 at h ⊢
  simp only [List.mem_cons, List.not_mem_nil, or_false] at h ⊢
  rcases h with h | h | h | h <;> subst h
  · exact Or.inr (Or.inl (Point.eq_of_xy _ _ (by ring) rfl))
  · exact Or.inl (Point.eq_of_xy _ _ (by ring) rfl)
  · exact Or.inr (Or.inr (Or.inr (Point.eq_of_xy _ _ rfl (by ring))))
  · exact Or.inr (Or.inr (Or.inl (Point.eq_of_xy _ _ rfl (by ring))))

/-- A traversal step: both endpoints lie in the artist's own set and
are 4-adjacent (adjacency to another artist's pixel never connects). -/
def stepIn (S : List Point) (u v : Point) : Prop := u ∈ S ∧ v ∈ S ∧ adj4 u v

/-- Reachability inside the set `S`. -/
def Reach (S : List Point) (u v : Point) : Prop :=
  u ∈ S ∧ Relation.ReflTransGen (stepIn S) u v

/-- The set forms exactly one connected component: every member
reaches every member inside the set. -/
def OneComp (S : List Point) : Prop := ∀ u ∈ S, ∀ v ∈ S, Reach S u v

theorem stepIn_symm (S : List Point) : Symmetric (stepIn S) := by
  rintro u v ⟨hu, hv, hadj⟩
  exact ⟨hv, hu, adj4_symm u v hadj⟩

theorem rtg_last_mem (S : List Point) (u v : Point)
    (h : Relation.ReflTransGen (stepIn S) u v) : u = v ∨ v ∈ S := by
  induction h with
  | refl => exact Or.inl rfl
  | tail _ hstep _ => exact Or.inr hstep.2.1

theorem Reach_symm (S : List Point) (u v : Point) (h : Reach S u v) :
    Reach S v u := by
  obtain ⟨hu, hr⟩ := h
  have hv : v ∈ S := (rtg_last_mem S u v hr).elim (fun he => he ▸ hu) id
  exact ⟨hv, Relation.ReflTransGen.symmetric (stepIn_symm S) hr⟩

theorem Reach_trans (S : List Point) (u v w : Point)
    (h1 : Reach S u v) (h2 : Reach S v w) : Reach S u w :=
  ⟨h1.1, Relation.ReflTransGen.trans h1.2 h2.2⟩

/-- Modelled from the spec: one growth step of the traversal — add
every in-set point adjacent to the current component. -/
def growStep (S C : List Point) : List Point :=
  C ++ S.filter (fun q => decide (q ∉ C) && C.any (fun r => decide (adj4 r q)))

/-- Modelled from the spec: the component of `p`, computed by growing
from `{p}` for `|S|` rounds (enough to reach the fixpoint). -/
def compo (S : List Point) (p : Point) : List Point :=
  (growStep S)^[S.length] [p]

theorem mem_growStep (S C : List Point) (v : Point) :
    v ∈ growStep S C ↔ v ∈ C ∨ (v ∈ S ∧ v ∉ C ∧ ∃ r ∈ C, adj4 r v) := by
  unfold growStep
  rw [List.mem_append, List.mem_filter]
  simp only [Bool.and_eq_true, decide_eq_true_eq, List.any_eq_true]

theorem subset_growStep (S C : List Point) : C ⊆ growStep S C :=
  List.subset_append_left _ _

theorem mem_iterate_growStep (S : List Point) (n : Nat) (C : List Point)
    (q : Point) (h : q ∈ C) : q ∈ (growStep S)^[n] C := by
  induction n generalizing C with
  | zero => simpa using h
  | succ k ih =>
      rw [Function.iterate_succ_apply]
      exact ih (growStep S C) (subset_growStep S C h)

theorem self_mem_compo (S : List Point) (p : Point) : p ∈ compo S p :=
  mem_iterate_growStep S S.length [p] p (by simp)

theorem growStep_inv (S : List Point) (p : Point) (C : List Point)
    (hC : ∀ q ∈ C, q ∈ S ∧ Reach S p q) :
    ∀ q ∈ growStep S C, q ∈ S ∧ Reach S p q := by
  intro q hq
  rcases (mem_growStep S C q).mp hq with h | ⟨hqS, _, r, hrC, hadj⟩
  · exact hC q h
  · refine ⟨hqS, ?_⟩
    obtain ⟨hrS, hreach⟩ := hC r hrC
    exact ⟨hreach.1, hreach.2.tail ⟨hrS, hqS, hadj⟩⟩

theorem iterate_growStep_inv (S : List Point) (p : Point) (n : Nat)
    (C : List Point) (hC : ∀ q ∈ C, q ∈ S ∧ Reach S p q) :
    ∀ q ∈ (growStep S)^[n] C, q ∈ S ∧ Reach S p q := by
  induction n generalizing C with
  | zero => simpa using hC
  | succ k ih =>
      rw [Function.iterate_succ_apply]
      exact ih (growStep S C) (growStep_inv S p C hC)

theorem compo_sound (S : List Point) (p : Point) (hp : p ∈ S) :
    ∀ q ∈ compo S p, q ∈ S ∧ Reach S p q := by
  refine iterate_growStep_inv S p S.length [p] ?_
  intro q hq
  rw [List.mem_singleton] at hq
  subst hq
  exact ⟨hp, hp, Relation.ReflTransGen.refl⟩

theorem growStep_nodup_subset (S : List Point) (hS : S.Nodup)
    (C : List Point) (h : C.Nodup ∧ C ⊆ S) :
    (growStep S C).Nodup ∧ growStep S C ⊆ S := by
  obtain ⟨hnd, hsub⟩ := h
  constructor
  · unfold growStep
    rw [List.nodup_append]
    refine ⟨hnd, hS.filter _, ?_⟩
    intro q hqC hqF
    rw [List.mem_filter] at hqF
    have := hqF.2
    simp only [Bool.and_eq_true, decide_eq_true_eq] at this
    exact this.1 hqC
  · intro q hq
    rcases (mem_growStep S C q).mp hq with h | h
    · exact hsub h
    · exact h.1

theorem iterate_growStep_nodup_subset (S : List Point) (hS : S.Nodup)
    (n : Nat) (C : List Point) (h : C.Nodup ∧ C ⊆ S) :
    ((growStep S)^[n] C).Nodup ∧ (growStep S)^[n] C ⊆ S := by
  induction n generalizing C with
  | zero => simpa using h
  | succ k ih =>
      rw [Function.iterate_succ_apply]
      exact ih (growStep S C) (growStep_nodup_subset S hS C h)

theorem compo_nodup_subset (S : List Point) (hS : S.Nodup) (p : Point)
    (hp : p ∈ S) : (compo S p).Nodup ∧ compo S p ⊆ S :=
  iterate_growStep_nodup_subset S hS S.length [p]
    ⟨List.nodup_singleton p, by simpa using hp⟩

theorem growStep_eq_or_lt (S C : List Point) :
    growStep S C = C ∨ C.length < (growStep S C).length := by
  unfold growStep
  cases hf : S.filter (fun q => decide (q ∉ C) && C.any (fun r => decide (adj4 r q))) with
  | nil => left; simp
  | cons x xs => right; simp [hf]

theorem growStep_fix_stable (S C : List Point) (h : growStep S C = C)
    (n : Nat) : (growStep S)^[n] C = C := by
  induction n with
  | zero => rfl
  | succ k ih => rw [Function.iterate_succ_apply', ih, h]

theorem growStep_strict_growth (S : List Point) (p : Point) (k : Nat)
    (h : ∀ i < k, growStep S ((growStep S)^[i] [p]) ≠ (growStep S)^[i] [p]) :
    k + 1 ≤ ((growStep S)^[k] [p]).length := by
  induction k with
  | zero => simp
  | succ n ih =>
      have hn : n + 1 ≤ ((growStep S)^[n] [p]).length :=
        ih (fun i hi => h i (Nat.lt_succ_of_lt hi))
      have hne := h n (Nat.lt_succ_self n)
      rcases growStep_eq_or_lt S ((growStep S)^[n] [p]) with he | hlt
      · exact absurd he hne
      · rw [Function.iterate_succ_apply']
        omega

/-- After `|S|` rounds the growth has reached its fixpoint. -/
theorem compo_fix (S : List Point) (hS : S.Nodup) (p : Point) (hp : p ∈ S) :
    growStep S (compo S p) = compo S p := by
  by_cases hex : ∃ i < S.length, growStep S ((growStep S)^[i] [p]) = (growStep S)^[i] [p]
  · obtain ⟨i, hi, hfix⟩ := hex
    have hdecomp : (growStep S)^[S.length] [p] =
        (growStep S)^[S.length - i] ((growStep S)^[i] [p]) := by
      rw [← Function.iterate_add_apply]
      congr 1
      omega
    unfold compo
    rw [hdecomp, growStep_fix_stable S _ hfix, hfix]
  · push_neg at hex
    exfalso
    have hgrow := growStep_strict_growth S p S.length hex
    have hbound := (iterate_growStep_nodup_subset S hS S.length [p]
      ⟨List.nodup_singleton p, by simpa using hp⟩)
    have : ((growStep S)^[S.length] [p]).length ≤ S.length :=
      (List.subperm_of_subset hbound.1 hbound.2).length_le
    omega

/-- A fixpoint of the growth step is adjacency-closed inside `S`. -/
theorem fix_closed (S C : List Point) (h : growStep S C = C) :
    ∀ r ∈ C, ∀ v ∈ S, adj4 r v → v ∈ C := by
  intro r hr v hv hadj
  by_contra hvC
  have : v ∈ growStep S C := (mem_growStep S C v).mpr
    (Or.inr ⟨hv, hvC, r, hr, hadj⟩)
  rw [h] at this
  exact hvC this

theorem compo_complete (S : List Point) (hS : S.Nodup) (p : Point)
    (hp : p ∈ S) (q : Point) (hq : Reach S p q) : q ∈ compo S p := by
  obtain ⟨_, hr⟩ := hq
  induction hr with
  | refl => exact self_mem_compo S p
  | tail hab hstep ih =>
      exact fix_closed S (compo S p) (compo_fix S hS p hp) _ ih _
        hstep.2.1 hstep.2.2

/-- The computed component is exactly the reachability class of `p`. -/
theorem compo_spec (S : List Point) (hS : S.Nodup) (p : Point) (hp : p ∈ S) :
    ∀ q, q ∈ compo S p ↔ q ∈ S ∧ Reach S p q := by
  intro q
  constructor
  · exact compo_sound S p hp q
  · rintro ⟨hqS, hreach⟩
    exact compo_complete S hS p hp q hreach

theorem filter_not_compo_length (p : Point) (rest : List Point) :
    ((p :: rest).filter (fun q => decide (q ∉ compo (p :: rest) p))).length <
      (p :: rest).length := by
  have hp : p ∈ compo (p :: rest) p := self_mem_compo _ p
  have h1 : (p :: rest).filter (fun q => decide (q ∉ compo (p :: rest) p)) =
      rest.filter (fun q => decide (q ∉ compo (p :: rest) p)) := by
    rw [List.filter_cons]
    simp [hp]
  rw [h1]
  have h2 := List.length_filter_le (fun q => decide (q ∉ compo (p :: rest) p)) rest
  simp only [List.length_cons]
  omega

/-- Modelled from the spec: peel off the component of the first
remaining point until the set is exhausted; the resulting groups are
the islands. -/
def components (S : List Point) : List (List Point) :=
  match S with
  | [] => []
  | p :: rest =>
      compo (p :: rest) p ::
        components ((p :: rest).filter (fun q => decide (q ∉ compo (p :: rest) p)))
termination_by S.length
decreasing_by
  exact filter_not_compo_length _ _

theorem components_nil : components ([] : List Point) = [] := by
  rw [components.eq_def]

theorem components_cons (p : Point) (rest : List Point) :
    components (p :: rest) =
      compo (p :: rest) p ::
        components ((p :: rest).filter (fun q => decide (q ∉ compo (p :: rest) p))) := by
  rw [components.eq_def]

theorem reach_filter_of_closed (S c : List Point)
    (hclosed : ∀ r ∈ c, ∀ v ∈ S, adj4 r v → v ∈ c)
    (r q : Point) (hrc : r ∉ c)
    (h : Relation.ReflTransGen (stepIn S) r q) :
    Relation.ReflTransGen (stepIn (S.filter (fun x => decide (x ∉ c)))) r q ∧
      q ∉ c := by
  induction h with
  | refl => exact ⟨.refl, hrc⟩
  | tail hab hstep ih =>
      obtain ⟨hrtg, hbc⟩ := ih
      obtain ⟨huS, hvS, hadj⟩ := hstep
      have hvc : _ ∉ c := fun hvC =>
        hbc (hclosed _ hvC _ huS (adj4_symm _ _ hadj))
      refine ⟨hrtg.tail ⟨?_, ?_, hadj⟩, hvc⟩
      · rw [List.mem_filter]
        exact ⟨huS, by simpa using hbc⟩
      · rw [List.mem_filter]
        exact ⟨hvS, by simpa using hvc⟩

theorem reach_mono (S' S : List Point) (hsub : S' ⊆ S) (u v : Point)
    (h : Reach S' u v) : Reach S u v := by
  obtain ⟨hu, hr⟩ := h
  refine ⟨hsub hu, ?_⟩
  induction hr with
  | refl => exact .refl
  | tail hab hstep ih =>
      exact ih.tail ⟨hsub hstep.1, hsub hstep.2.1, hstep.2.2⟩

theorem components_spec_aux (n : Nat) : ∀ (S : List Point), S.length ≤ n →
    S.Nodup →
    (∀ G ∈ components S, ∃ r, r ∈ S ∧ ∀ q, (q ∈ G ↔ q ∈ S ∧ Reach S r q)) ∧
    (∀ q ∈ S, ∃ G ∈ components S, q ∈ G) := by
  induction n with
  | zero =>
      intro S hlen hnd
      have : S = [] := List.eq_nil_of_length_eq_zero (Nat.le_zero.mp hlen)
      subst this
      constructor
      · intro G hG; rw [components_nil] at hG; simp at hG
      · intro q hq; simp at hq
  | succ n ih =>
      intro S hlen hnd
      cases S with
      | nil =>
          constructor
          · intro G hG; rw [components_nil] at hG; simp at hG
          · intro q hq; simp at hq
      | cons p rest =>
          have hp : p ∈ p :: rest := List.mem_cons_self p rest
          have hpc : p ∈ compo (p :: rest) p := self_mem_compo _ p
          have hclosed := fix_closed (p :: rest) (compo (p :: rest) p)
            (compo_fix (p :: rest) hnd p hp)
          have hfeq : (p :: rest).filter
              (fun q => decide (q ∉ compo (p :: rest) p)) =
              rest.filter (fun q => decide (q ∉ compo (p :: rest) p)) := by
            rw [List.filter_cons]
            simp [hpc]
          have hS'len : ((p :: rest).filter
              (fun q => decide (q ∉ compo (p :: rest) p))).length ≤ n := by
            rw [hfeq]
            have := List.length_filter_le
              (fun q => decide (q ∉ compo (p :: rest) p)) rest
            simp only [List.length_cons] at hlen
            omega
          have hS'nd : ((p :: rest).filter
              (fun q => decide (q ∉ compo (p :: rest) p))).Nodup :=
            hnd.filter _
          have hS'sub : (p :: rest).filter
              (fun q => decide (q ∉ compo (p :: rest) p)) ⊆ p :: rest :=
            (List.filter_sublist _).subset
          obtain ⟨ihclass, ihcover⟩ := ih _ hS'len hS'nd
          constructor
          · intro G hG
            rw [components_cons, List.mem_cons] at hG
            rcases hG with hG | hG
            · subst hG
              exact ⟨p, hp, compo_spec (p :: rest) hnd p hp⟩
            · obtain ⟨r, hrS', hclass⟩ := ihclass G hG
              have hrmem := List.mem_filter.mp hrS'
              have hrc : r ∉ compo (p :: rest) p := by
                simpa using hrmem.2
              refine ⟨r, hrmem.1, fun q => ?_⟩
              rw [hclass q]
              constructor
              · rintro ⟨hqS', hreach'⟩
                exact ⟨hS'sub hqS', reach_mono _ _ hS'sub r q hreach'⟩
              · rintro ⟨hqS, hreach⟩
                obtain ⟨hru, hrtg⟩ := hreach
                obtain ⟨hrtg', hqc⟩ := reach_filter_of_closed (p :: rest) _
                  hclosed r q hrc hrtg
                refine ⟨List.mem_filter.mpr ⟨hqS, by simpa using hqc⟩,
                  List.mem_filter.mpr ⟨hru, by simpa using hrc⟩, hrtg'⟩
          · intro q hq
            by_cases hqc : q ∈ compo (p :: rest) p
            · exact ⟨compo (p :: rest) p, by rw [components_cons]; simp, hqc⟩
            · obtain ⟨G, hG, hqG⟩ := ihcover q
                (List.mem_filter.mpr ⟨hq, by simpa using hqc⟩)
              exact ⟨G, by rw [components_cons]; exact List.mem_cons_of_mem _ hG, hqG⟩

theorem components_classes (S : List Point) (hS : S.Nodup) :
    ∀ G ∈ components S, ∃ r, r ∈ S ∧ ∀ q, (q ∈ G ↔ q ∈ S ∧ Reach S r q) :=
  (components_spec_aux S.length S le_rfl hS).1

theorem components_cover (S : List Point) (hS : S.Nodup) :
    ∀ q ∈ S, ∃ G ∈ components S, q ∈ G :=
  (components_spec_aux S.length S le_rfl hS).2

theorem components_length_one_iff (S : List Point) (hS : S.Nodup)
    (hne : S ≠ []) : ((components S).length = 1 ↔ OneComp S) := by
  obtain ⟨p, rest, rfl⟩ := List.exists_cons_of_ne_nil hne
  have hp : p ∈ p :: rest := List.mem_cons_self p rest
  constructor
  · intro h1
    rw [components_cons] at h1
    simp only [List.length_cons] at h1
    have htail : components ((p :: rest).filter
        (fun q => decide (q ∉ compo (p :: rest) p))) = [] :=
      List.eq_nil_of_length_eq_zero (by omega)
    intro u hu v hv
    have hucover := components_cover _ hS u hu
    have hvcover := components_cover _ hS v hv
    rw [components_cons, htail] at hucover hvcover
    obtain ⟨Gu, hGu, huG⟩ := hucover
    obtain ⟨Gv, hGv, hvG⟩ := hvcover
    simp only [List.mem_singleton] at hGu hGv
    subst hGu
    subst hGv
    have hru := (compo_spec _ hS p hp u).mp huG
    have hrv := (compo_spec _ hS p hp v).mp hvG
    exact Reach_trans _ _ _ _ (Reach_symm _ _ _ hru.2) hrv.2
  · intro hone
    have hfilter : (p :: rest).filter
        (fun q => decide (q ∉ compo (p :: rest) p)) = [] := by
      rw [List.filter_eq_nil_iff]
      intro q hq
      simp only [decide_eq_true_eq, Decidable.not_not]
      exact (compo_spec _ hS p hp q).mpr ⟨hq, hone p hp q hq⟩
    rw [components_cons, hfilter, components_nil]
    rfl

/-- Modelled from the spec: `check_no_islands` — for each artist,
count the components of its occupancy set; more than one is a
violation reported with the island partition. -/
def check_no_islands (posns_map : PosnsMap) : List (Nat × List (List Point)) :=
  posns_map.filterMap (fun as =>
    if (components as.2).length ≤ 1 then none
    else some (as.1, components as.2))

theorem keys_nodup_val_eq (m : PosnsMap) (hkeys : (m.map Prod.fst).Nodup)
    (a : Nat) (s t : List Point) (hs : (a, s) ∈ m) (ht : (a, t) ∈ m) :
    s = t := by
  induction m with
  | nil => simp at hs
  | cons hd tl ih =>
      simp only [List.map_cons, List.nodup_cons] at hkeys
      rcases List.mem_cons.mp hs with h | h <;> rcases List.mem_cons.mp ht with h2 | h2
      · exact congrArg Prod.snd (h.trans h2.symm)
      · exfalso
        refine hkeys.1 (List.mem_map.mpr ⟨(a, t), h2, ?_⟩)
        rw [← h]
      · exfalso
        refine hkeys.1 (List.mem_map.mpr ⟨(a, s), h, ?_⟩)
        rw [← h2]
      · exact ih hkeys.2 h h2

/-- C2 (modelled from the spec, the source body being
`unimplemented!()`): an artist with a non-empty occupancy set passes
`check_no_islands` iff the set is one connected component under
4-connectivity; when it fails, the reported violation lists at least
two islands which are exactly the reachability classes partitioning
the set. -/
theorem check_no_islands_spec (m : PosnsMap) (a : Nat) (s : List Point)
    (hkeys : (m.map Prod.fst).Nodup) (hmem : (a, s) ∈ m)
    (hne : s ≠ []) (hnd : s.Nodup) :
    ((∀ e ∈ check_no_islands m, e.1 ≠ a) ↔ OneComp s) ∧
    (∀ isles, (a, isles) ∈ check_no_islands m →
      2 ≤ isles.length ∧
      (∀ G ∈ isles, ∃ r, r ∈ s ∧ ∀ q, (q ∈ G ↔ q ∈ s ∧ Reach s r q)) ∧
      (∀ q ∈ s, ∃ G ∈ isles, q ∈ G)) := by
  have hcomp_pos : 1 ≤ (components s).length := by
    obtain ⟨p, rest, rfl⟩ := List.exists_cons_of_ne_nil hne
    rw [components_cons]
    simp
  constructor
  · constructor
    · intro hpass
      by_contra hnone
      have hlen : (components s).length ≠ 1 := fun h =>
        hnone ((components_length_one_iff s hnd hne).mp h)
      have hviol : (a, components s) ∈ check_no_islands m := by
        refine List.mem_filterMap.mpr ⟨(a, s), hmem, ?_⟩
        show (if (components s).length ≤ 1 then none
          else some (a, components s)) = some (a, components s)
        rw [if_neg (by omega)]
      exact hpass (a, components s) hviol rfl
    · intro hone e he hea
      obtain ⟨bs, hbs, hsome⟩ := List.mem_filterMap.mp he
      by_cases hcond : (components bs.2).length ≤ 1
      · rw [if_pos hcond] at hsome
        exact Option.noConfusion hsome
      · rw [if_neg hcond] at hsome
        injection hsome with hsome
        have hbs1 : bs.1 = a := (congrArg Prod.fst hsome).trans hea
        have hbs2 : bs.2 = s := by
          refine keys_nodup_val_eq m hkeys a bs.2 s ?_ hmem
          rw [← hbs1]
          exact hbs
        rw [hbs2] at hcond
        exact hcond (le_of_eq ((components_length_one_iff s hnd hne).mpr hone))
  · intro isles hisles
    obtain ⟨bs, hbs, hsome⟩ := List.mem_filterMap.mp hisles
    by_cases hcond : (components bs.2).length ≤ 1
    · rw [if_pos hcond] at hsome
      exact Option.noConfusion hsome
    · rw [if_neg hcond] at hsome
      injection hsome with hsome
      have hbs1 : bs.1 = a := congrArg Prod.fst hsome
      have hisles_eq : isles = components bs.2 :=
        (congrArg Prod.snd hsome).symm
      have hbs2 : bs.2 = s := by
        refine keys_nodup_val_eq m hkeys a bs.2 s ?_ hmem
        rw [← hbs1]
        exact hbs
      rw [hbs2] at hisles_eq hcond
      subst hisles_eq
      exact ⟨by omega, components_classes s hnd, components_cover s hnd⟩

/-- Witness for `check_no_islands_spec` at a one-artist, one-pixel map. -/
theorem check_no_islands_spec_witness :
    ((([(1, [Point.mk 0 0])] : PosnsMap).map Prod.fst).Nodup ∧
      (1, [Point.mk 0 0]) ∈ ([(1, [Point.mk 0 0])] : PosnsMap) ∧
      [Point.mk 0 0] ≠ ([] : List Point) ∧ ([Point.mk 0 0] : List Point).Nodup) ∧
    (((∀ e ∈ check_no_islands [(1, [Point.mk 0 0])], e.1 ≠ 1) ↔
        OneComp [Point.mk 0 0]) ∧
      (∀ isles, (1, isles) ∈ check_no_islands [(1, [Point.mk 0 0])] →
        2 ≤ isles.length ∧
        (∀ G ∈ isles, ∃ r, r ∈ [Point.mk 0 0] ∧
          ∀ q, (q ∈ G ↔ q ∈ [Point.mk 0 0] ∧ Reach [Point.mk 0 0] r q)) ∧
        (∀ q ∈ [Point.mk 0 0], ∃ G ∈ isles, q ∈ G))) :=
  ⟨⟨by decide, by decide, by decide, by decide⟩,
    check_no_islands_spec [(1, [Point.mk 0 0])] 1 [Point.mk 0 0]
      (by decide) (by decide) (by decide) (by decide)⟩
